import Mathlib

/-!
Verification of the fog-of-war bitmask editor, coordinate rounding,
auto-pan logic and Redux reducers of the gTove virtual-tabletop repository.

The fog editor (`changeFogOfWarBitmask` in
`src/container/AuthenticatedContainer.js`) manipulates a packed array of
32-bit words using JavaScript bitwise operators.  JavaScript bitwise
operators coerce their operands with `ToInt32` (two's-complement, 32 bits)
and return a signed 32-bit result; we embed numbers as `ℤ` together with
explicit 32-bit conversions, and continuous (double) coordinates as `ℚ`.
JavaScript array writes past the current length grow the array; the holes
read back as `undefined`, which `ToInt32` maps to `0`, so holes are
modelled as the word `0`.
-/

namespace GTove

/-- Unsigned 32-bit pattern of an integer, as used by JavaScript `ToUint32`. -/
def toU32 (a : ℤ) : ℕ := (a % 4294967296).toNat

/-- Reinterpret an unsigned 32-bit pattern as a signed 32-bit integer,
as JavaScript `ToInt32` does after reducing mod 2^32. -/
def ofU32 (n : ℕ) : ℤ := if n < 2147483648 then (n : ℤ) else (n : ℤ) - 4294967296

/-- JavaScript `ToInt32`. -/
def toInt32 (a : ℤ) : ℤ := ofU32 (toU32 a)

/-- JavaScript `a | b` (32-bit signed bitwise or). -/
def jsOr (a b : ℤ) : ℤ := ofU32 (toU32 a ||| toU32 b)

/-- JavaScript `a & b` (32-bit signed bitwise and). -/
def jsAnd (a b : ℤ) : ℤ := ofU32 (toU32 a &&& toU32 b)

/-- JavaScript `a ^ b` (32-bit signed bitwise xor). -/
def jsXor (a b : ℤ) : ℤ := ofU32 (toU32 a ^^^ toU32 b)

/-- JavaScript `~a` (32-bit signed bitwise complement). -/
def jsNot (a : ℤ) : ℤ := ofU32 (toU32 a ^^^ 4294967295)

/-- JavaScript `a >> 5`: `ToInt32` then arithmetic shift right by five,
which is flooring division by 32. -/
def jsShiftRight5 (a : ℤ) : ℤ := Int.fdiv (toInt32 a) 32

/-- JavaScript `1 << k`: shift count is `ToUint32(k) & 31`, result signed. -/
def jsShiftLeft1 (k : ℤ) : ℤ := ofU32 (2 ^ (toU32 k % 32))

/-- The signed 32-bit range, the set of values JavaScript bitwise results
(and fog bitmask words, per the data model) lie in. -/
def isInt32 (a : ℤ) : Prop := -2147483648 ≤ a ∧ a < 2147483648

instance (a : ℤ) : Decidable (isInt32 a) := by unfold isInt32; infer_instance

/-- JavaScript array element read, coerced through `ToInt32`'s treatment of
out-of-range and negative indices: such reads give `undefined`, which the
bitwise operators treat as `0`. -/
def jsArrayGet (l : List ℤ) (i : ℤ) : ℤ := if 0 ≤ i then l.getD i.toNat 0 else 0

/-- JavaScript array element write.  A write at an index at or beyond the
current length grows the array (holes modelled as `0`); a write at a
negative index does not change the array elements. -/
def jsArraySet (l : List ℤ) (i : ℤ) (v : ℤ) : List ℤ :=
  if 0 ≤ i then
    if i.toNat < l.length then l.set i.toNat v
    else l ++ List.replicate (i.toNat - l.length) 0 ++ [v]
  else l

/-- Lodash `clamp(n, lower, upper)`: the upper bound is applied first, then
the lower bound, so `max lower (min upper n)`. -/
def clamp (n lo hi : ℤ) : ℤ := max lo (min hi n)

/-- The clamped integer cell lower bound on the x axis, from
`clamp(Math.floor(Math.min(startPos.x, endPos.x) + 0.5), 0, fogWidth)` after
both points were shifted by `fogCentre = fogWidth / 2`. -/
def fogStartX (w : ℤ) (s e : ℚ × ℚ) : ℤ :=
  clamp ⌊min (s.1 + w / 2) (e.1 + w / 2) + 1 / 2⌋ 0 w

/-- The clamped integer cell upper bound on the x axis, from
`clamp(Math.floor(Math.max(startPos.x, endPos.x) - 0.5), 0, fogWidth)`. -/
def fogEndX (w : ℤ) (s e : ℚ × ℚ) : ℤ :=
  clamp ⌊max (s.1 + w / 2) (e.1 + w / 2) - 1 / 2⌋ 0 w

/-- The clamped integer cell lower bound on the y axis (the `z` world
coordinate), shifted by `fogHeight / 2`. -/
def fogStartY (h : ℤ) (s e : ℚ × ℚ) : ℤ :=
  clamp ⌊min (s.2 + h / 2) (e.2 + h / 2) + 1 / 2⌋ 0 h

/-- The clamped integer cell upper bound on the y axis. -/
def fogEndY (h : ℤ) (s e : ℚ × ℚ) : ℤ :=
  clamp ⌊max (s.2 + h / 2) (e.2 + h / 2) - 1 / 2⌋ 0 h

/-- The inclusive integer range `[a, b]` as a list (empty when `b < a`),
the index sequence of a `for (let i = a; i <= b; ++i)` loop. -/
def intRange (a b : ℤ) : List ℤ :=
  (List.range (b + 1 - a).toNat).map (fun (k : ℕ) => a + (k : ℤ))

/-- The flat texture indices `x + y * fogWidth` visited by the nested
`for (y) for (x)` loops of `changeFogOfWarBitmask`, in loop order. -/
def fogCells (w h : ℤ) (s e : ℚ × ℚ) : List ℤ :=
  (intRange (fogStartY h s e) (fogEndY h s e)).flatMap
    (fun y => (intRange (fogStartX w s e) (fogEndX w s e)).map (fun x => x + y * w))

/-- `bitmaskIndex = textureIndex >> 5`. -/
def fogWordIndex (t : ℤ) : ℤ := jsShiftRight5 t

/-- `mask = 1 << (textureIndex & 0x1f)`. -/
def fogMask (t : ℤ) : ℤ := jsShiftLeft1 (jsAnd t 31)

/-- One update of a fog word: `|=` for reveal (`true`), `&= ~` for cover
(`false`), `^=` for toggle (`null`, modelled as `none`). -/
def fogWordOp (reveal : Option Bool) (w mask : ℤ) : ℤ :=
  match reveal with
  | none => jsXor w mask
  | some true => jsOr w mask
  | some false => jsAnd w (jsNot mask)

/-- The loop body of `changeFogOfWarBitmask` for one cell with flat texture
index `t`: read-modify-write of the word holding the cell's bit. -/
def fogApplyCell (reveal : Option Bool) (arr : List ℤ) (t : ℤ) : List ℤ :=
  jsArraySet arr (fogWordIndex t) (fogWordOp reveal (jsArrayGet arr (fogWordIndex t)) (fogMask t))

/-- The nested cell loops of `changeFogOfWarBitmask`, folded in loop order. -/
def fogEditLoop (reveal : Option Bool) (arr : List ℤ) (cells : List ℤ) : List ℤ :=
  cells.foldl (fogApplyCell reveal) arr

/-- `Math.ceil(fogWidth * fogHeight / 32.0)`, the length of a freshly
allocated fog bitmask. -/
def allocLen (w h : ℤ) : ℕ := (⌈((w * h : ℤ) : ℚ) / 32⌉).toNat

/-- The fog-bitmask mutation of `changeFogOfWarBitmask`
(`AuthenticatedContainer.js` lines 890-924) from the point where the
grid-rounded map-local rectangle corners `s`, `e` are in hand: shift by the
fog centre, derive clamped cell bounds, start from a copy of the existing
bitmask or a fresh all-ones array, and run the bit loop.  The rotation and
grid rounding that produce `s` and `e` are embedded separately
(`roundVectors`). -/
def changeFogOfWarBitmask (reveal : Option Bool) (fogOfWar : Option (List ℤ))
    (w h : ℤ) (s e : ℚ × ℚ) : List ℤ :=
  let base := match fogOfWar with
    | some arr => arr
    | none => List.replicate (allocLen w h) (-1)
  fogEditLoop reveal base (fogCells w h s e)

/-- A store of JavaScript arrays, indexed by reference; used to state the
copy-on-write property of the fog edit.  `storeGet` dereferences. -/
def storeGet (store : List (List ℤ)) (r : ℕ) : List ℤ := store.getD r []

/-- Overwrite the array at reference `r`. -/
def storeSet (store : List (List ℤ)) (r : ℕ) (v : List ℤ) : List (List ℤ) := store.set r v

/-- Reference-level model of `changeFogOfWarBitmask` on an existing input
bitmask: `let fogOfWar = [...map.fogOfWar]` allocates a fresh array
(reference `store.length`) holding a copy of the input, and every write of
the loop goes through that fresh reference.  Returns the final store and
the new array's reference. -/
def changeFogOfWarBitmaskStore (reveal : Option Bool) (store : List (List ℤ))
    (inputRef : ℕ) (w h : ℤ) (s e : ℚ × ℚ) : List (List ℤ) × ℕ :=
  let newRef := store.length
  let store1 := store ++ [storeGet store inputRef]
  let store2 := (fogCells w h s e).foldl
    (fun st t => storeSet st newRef (fogApplyCell reveal (storeGet st newRef) t)) store1
  (store2, newRef)

/-- A world/map-local point; only the `x` and `z` components take part in
the grid rounding, `y` is passed through. -/
structure V3 where
  x : ℚ
  y : ℚ
  z : ℚ
deriving DecidableEq

/-- One axis of `roundVectors`: floor the lesser end, ceil-minus-epsilon the
greater end, crossed over when `a > b`.  The epsilon is the source's `0.01`. -/
def roundAxisPair (a b : ℚ) : ℚ × ℚ :=
  if a ≤ b then ((⌊a⌋ : ℚ), (⌈b⌉ : ℚ) - 1 / 100)
  else ((⌈a⌉ : ℚ) - 1 / 100, (⌊b⌋ : ℚ))

/-- `roundVectors(start, end)` (`AuthenticatedContainer.js` lines 774-789):
rounds the `x` and `z` axes of the two points outward in place; the `y`
components are untouched.  Modelled as returning the updated pair. -/
def roundVectors (s e : V3) : V3 × V3 :=
  let px := roundAxisPair s.x e.x
  let pz := roundAxisPair s.z e.z
  (⟨px.1, s.y, pz.1⟩, ⟨px.2, e.y, pz.2⟩)

/-- `TabletopViewComponent.FOG_RECT_DRAG_BORDER`. -/
def FOG_RECT_DRAG_BORDER : ℚ := 30

/-- The interval, in milliseconds, of the auto-pan timer started by
`dragFogOfWarRect` (`setInterval(this.autoPanForFogOfWarRect, 100)`). -/
def autoPanIntervalMilliseconds : ℕ := 100

/-- The pan delta computed by one tick of `autoPanForFogOfWarRect`
(`AuthenticatedContainer.js` lines 496-518) during an active drag
(`fogOfWarRect` set, `showButtons` false): `dragBorder` is the minimum of
`FOG_RECT_DRAG_BORDER` and a tenth of each viewport dimension, and each
axis contributes a push-back delta when the pointer is inside the border
band at either edge. -/
def autoPanDelta (px py w h : ℚ) : ℚ × ℚ :=
  let dragBorder := min FOG_RECT_DRAG_BORDER (min (w / 10) (h / 10))
  let dx := if px < dragBorder then dragBorder - px
    else if px ≥ w - dragBorder then w - dragBorder - px else 0
  let dy := if py < dragBorder then dragBorder - py
    else if py ≥ h - dragBorder then h - dragBorder - py else 0
  (dx, dy)

/-- One tick of `autoPanForFogOfWarRect` during an active drag with a
camera present: a camera adjustment is dispatched exactly when the computed
delta is truthy (`delta.x || delta.y`, i.e. some component nonzero). -/
def autoPanForFogOfWarRect (px py w h : ℚ) : Option (ℚ × ℚ) :=
  if (autoPanDelta px py w h).1 ≠ 0 ∨ (autoPanDelta px py w h).2 ≠ 0
  then some (autoPanDelta px py w h) else none

/-- The action types reaching the logged-in-user reducer: its own
`SET_LOGGED_IN_USER` plus any other action (the `default` branch). -/
inductive LoggedInUserActionType where
  | setLoggedInUser
  | other
deriving DecidableEq

/-- A `SetLoggedInUserActionType` action, over an abstract user type `U`
(`DriveUser` is opaque to the reducer); `fromPeerId` is the optional field
added by the peer-to-peer middleware. -/
structure SetLoggedInUserAction (U : Type) where
  type : LoggedInUserActionType
  user : Option U
  fromPeerId : Option String

/-- JavaScript truthiness of an optional string: absent and the empty
string are falsy. -/
def jsTruthyString (o : Option String) : Bool :=
  match o with
  | none => false
  | some s => s ≠ ""

/-- `loggedInUserReducer` (`src/unnamed/part_000` lines 24-32): on
`SET_LOGGED_IN_USER`, keep the prior state when `(action as
AnyAction).fromPeerId` is truthy, otherwise adopt `action.user`; any other
action returns the state unchanged. -/
def loggedInUserReducer {U : Type} (state : Option U) (action : SetLoggedInUserAction U) :
    Option U :=
  match action.type with
  | .setLoggedInUser => if jsTruthyString action.fromPeerId then state else action.user
  | .other => state

/-- The slice of `DriveMetadata` relevant to the file index's
parent/children bookkeeping.  A metadata object with no `parents` field is
modelled with the empty list (the reducer reads it as `parents || []`). -/
structure DriveMetadataLite where
  id : String
  parents : List String
deriving DecidableEq

/-- The `children` map of the file index: directory id to list of child ids. -/
def ChildrenMap : Type := String → Option (List String)

/-- The `driveMetadata` map of the file index: file id to stored metadata. -/
def MetadataMap : Type := String → Option DriveMetadataLite

/-- The file-index store slices touched by `UPDATE_FILE_ACTION` (the
`roots` slice is untouched by that action and omitted). -/
structure FileIndexState where
  driveMetadata : MetadataMap
  children : ChildrenMap

/-- One step of the `UPDATE_FILE_ACTION` reduce in `childrenReducer`
(`fileIndexReducer.ts` lines 99-107): the accumulator is `undefined` until
a parent needs the child appended, at which point the prior state is
copied; the duplicate test reads the ORIGINAL `state`, not the
accumulator. -/
def childrenUpdateStep (state : ChildrenMap) (id : String)
    (acc : Option ChildrenMap) (parentId : String) : Option ChildrenMap :=
  if id ∈ ((state parentId).getD []) then acc
  else
    let next := acc.getD state
    let previous := (next parentId).getD []
    some (fun k => if k = parentId then some (previous ++ [id]) else next k)

/-- The `UPDATE_FILE_ACTION` branch of `childrenReducer`: fold the step over
the new metadata's parents; `undefined` (no change needed) falls back to the
original state via `|| state`. -/
def childrenReducerUpdateFile (state : ChildrenMap) (parents : List String) (id : String) :
    ChildrenMap :=
  (parents.foldl (childrenUpdateStep state id) none).getD state

/-- Remove `id` from `children[q]` for each removed parent `q`
(`children[removedParentId] = without(children[removedParentId], id)`;
lodash `without` drops every occurrence, and maps a missing list to `[]`). -/
def removeFromChildren (children : ChildrenMap) (removedParents : List String) (id : String) :
    ChildrenMap :=
  removedParents.foldl
    (fun ch q => fun k => if k = q then some (((ch q).getD []).filter (fun c => c ≠ id)) else ch k)
    children

/-- `fileIndexReducer` (`fileIndexReducer.ts` lines 143-159) restricted to
`UPDATE_FILE_ACTION`: run the combined reducers (`driveMetadata` stores the
new metadata, `childrenReducer` appends the child under each new parent),
then strip the child from parents present in the old stored metadata but
absent from the new one.  The JavaScript guard compares the old and new
`parents` arrays with `!==` (reference inequality); value inequality is
extensionally equivalent here because equal-valued arrays make
`removedParents` empty and the branch a no-op. -/
def fileIndexReducerUpdateFile (state : FileIndexState) (metadata : DriveMetadataLite) :
    FileIndexState :=
  let next : FileIndexState :=
    { driveMetadata := fun k => if k = metadata.id then some metadata else state.driveMetadata k
      children := childrenReducerUpdateFile state.children metadata.parents metadata.id }
  match state.driveMetadata metadata.id with
  | none => next
  | some old =>
    if old.parents = metadata.parents then next
    else
      let removedParents := old.parents.filter (fun q => q ∉ metadata.parents)
      if removedParents.isEmpty then next
      else { next with children := removeFromChildren next.children removedParents metadata.id }

/-! Basic facts about the 32-bit conversions. -/

theorem toU32_lt (a : ℤ) : toU32 a < 4294967296 := by
  unfold toU32; omega

theorem toU32_ofU32 {n : ℕ} (h : n < 4294967296) : toU32 (ofU32 n) = n := by
  unfold toU32 ofU32
  split <;> omega

theorem ofU32_toU32 {a : ℤ} (h : isInt32 a) : ofU32 (toU32 a) = a := by
  obtain ⟨h1, h2⟩ := h
  unfold ofU32 toU32
  split <;> omega

theorem isInt32_ofU32 {n : ℕ} (h : n < 4294967296) : isInt32 (ofU32 n) := by
  unfold ofU32 isInt32
  split <;> omega

/-- A natural number all of whose bits at position 32 and above are clear
is below `2^32`. -/
theorem lt_u32_of_high_bits (x : ℕ) (h : ∀ i, 32 ≤ i → x.testBit i = false) :
    x < 4294967296 := by
  have h32 : (4294967296 : ℕ) = 2 ^ 32 := by norm_num
  have hmod : x % 4294967296 = x := by
    apply Nat.eq_of_testBit_eq
    intro i
    rw [h32, Nat.testBit_mod_two_pow]
    by_cases hi : i < 32
    · simp [hi]
    · simp [hi, h i (le_of_not_lt hi)]
  have := Nat.mod_lt x (y := 4294967296) (by norm_num)
  omega

theorem high_bit_false_of_lt {x : ℕ} (h : x < 4294967296) {i : ℕ} (hi : 32 ≤ i) :
    x.testBit i = false := by
  apply Nat.testBit_eq_false_of_lt
  calc x < 4294967296 := h
    _ = 2 ^ 32 := by norm_num
    _ ≤ 2 ^ i := Nat.pow_le_pow_right (by norm_num) hi

theorem lor_lt_u32 {a b : ℕ} (ha : a < 4294967296) (hb : b < 4294967296) :
    (a ||| b) < 4294967296 := by
  apply lt_u32_of_high_bits
  intro i hi
  rw [Nat.testBit_lor, high_bit_false_of_lt ha hi, high_bit_false_of_lt hb hi]
  rfl

theorem land_lt_u32 {a : ℕ} (b : ℕ) (ha : a < 4294967296) : (a &&& b) < 4294967296 := by
  apply lt_u32_of_high_bits
  intro i hi
  rw [Nat.testBit_land, high_bit_false_of_lt ha hi]
  rfl

theorem xor_lt_u32 {a b : ℕ} (ha : a < 4294967296) (hb : b < 4294967296) :
    (a ^^^ b) < 4294967296 := by
  apply lt_u32_of_high_bits
  intro i hi
  rw [Nat.testBit_xor, high_bit_false_of_lt ha hi, high_bit_false_of_lt hb hi]
  rfl

/-! Reads and writes through the JavaScript array model. -/

theorem jsArrayGet_nonneg (l : List ℤ) {j : ℤ} (hj : 0 ≤ j) :
    jsArrayGet l j = (l.getD j.toNat 0) := by
  unfold jsArrayGet
  simp [hj]

theorem jsArraySet_length (l : List ℤ) {i : ℤ} (v : ℤ) (hi : 0 ≤ i) :
    (jsArraySet l i v).length = max l.length (i.toNat + 1) := by
  unfold jsArraySet
  rw [if_pos hi]
  by_cases hlen : i.toNat < l.length
  · rw [if_pos hlen, List.length_set]
    omega
  · rw [if_neg hlen]
    simp [List.length_append, List.length_replicate]
    omega

theorem jsArrayGet_jsArraySet (l : List ℤ) {i : ℤ} (v : ℤ) (j : ℤ) (hi : 0 ≤ i) :
    jsArrayGet (jsArraySet l i v) j = if j = i then v else jsArrayGet l j := by
  unfold jsArraySet
  rw [if_pos hi]
  by_cases hj : 0 ≤ j
  · by_cases hlen : i.toNat < l.length
    · rw [if_pos hlen, jsArrayGet_nonneg _ hj, jsArrayGet_nonneg _ hj,
        List.getD_eq_getElem?_getD, List.getD_eq_getElem?_getD, List.getElem?_set]
      by_cases hji : j = i
      · subst hji
        simp [hlen, Int.toNat_of_nonneg hj]
      · have hne : ¬ (i.toNat = j.toNat) := by omega
        simp [hne, hji]
    · rw [if_neg hlen, jsArrayGet_nonneg _ hj, jsArrayGet_nonneg _ hj,
        List.getD_eq_getElem?_getD, List.getD_eq_getElem?_getD]
      have hmidlen : (l ++ List.replicate (i.toNat - l.length) (0 : ℤ)).length = i.toNat := by
        simp [List.length_append, List.length_replicate]
        omega
      by_cases hji : j = i
      · subst hji
        rw [if_pos rfl]
        have harr := List.getElem?_concat_length
          (l ++ List.replicate (j.toNat - l.length) (0 : ℤ)) v
        rw [hmidlen] at harr
        rw [harr]
        rfl
      · rw [if_neg hji]
        by_cases hout : j.toNat < i.toNat
        · rw [List.getElem?_append_left (by rw [hmidlen]; omega)]
          by_cases hjl : j.toNat < l.length
          · rw [List.getElem?_append_left hjl]
          · rw [List.getElem?_append_right (by omega),
              List.getElem?_eq_none (l := l) (by omega), List.getElem?_replicate,
              if_pos (by omega)]
            rfl
        · have hgt : i.toNat < j.toNat := by omega
          rw [List.getElem?_append_right (by rw [hmidlen]; omega), hmidlen,
            List.getElem?_eq_none (l := l) (by omega)]
          have hne : j.toNat - i.toNat ≠ 0 := by omega
          rcases Nat.exists_eq_succ_of_ne_zero hne with ⟨k, hk⟩
          simp [hk]
  · have hji : ¬ (j = i) := by omega
    unfold jsArrayGet
    simp [hj, hji]

/-! Pointwise evaluation of the fog edit loop. -/

/-- The sequence of word updates a single word `b` receives from the cells
`ts` (all assumed to target that word). -/
def fogWordFold (reveal : Option Bool) (b : ℤ) (ts : List ℤ) : ℤ :=
  ts.foldl (fun a t => fogWordOp reveal a (fogMask t)) b

theorem fogEditLoop_get (reveal : Option Bool) (cells : List ℤ) :
    ∀ (arr : List ℤ), (∀ t ∈ cells, 0 ≤ fogWordIndex t) → ∀ j : ℤ,
    jsArrayGet (fogEditLoop reveal arr cells) j
      = fogWordFold reveal (jsArrayGet arr j)
          (cells.filter (fun t => fogWordIndex t = j)) := by
  induction cells with
  | nil => intro arr _ j; rfl
  | cons t ts ih =>
    intro arr h j
    have ht : 0 ≤ fogWordIndex t := h t (List.mem_cons_self t ts)
    have hts : ∀ u ∈ ts, 0 ≤ fogWordIndex u := fun u hu => h u (List.mem_cons_of_mem t hu)
    have hstep : jsArrayGet (fogApplyCell reveal arr t) j
        = if j = fogWordIndex t
          then fogWordOp reveal (jsArrayGet arr (fogWordIndex t)) (fogMask t)
          else jsArrayGet arr j := by
      unfold fogApplyCell
      exact jsArrayGet_jsArraySet arr _ j ht
    have hloop : fogEditLoop reveal arr (t :: ts)
        = fogEditLoop reveal (fogApplyCell reveal arr t) ts := rfl
    rw [hloop, ih (fogApplyCell reveal arr t) hts j, hstep]
    by_cases hj : fogWordIndex t = j
    · rw [if_pos hj.symm]
      have hfilter : (t :: ts).filter (fun u => fogWordIndex u = j)
          = t :: ts.filter (fun u => fogWordIndex u = j) := by
        rw [List.filter_cons, if_pos (by simp [hj])]
      rw [hfilter, hj]
      rfl
    · rw [if_neg (fun hh => hj hh.symm)]
      have hfilter : (t :: ts).filter (fun u => fogWordIndex u = j)
          = ts.filter (fun u => fogWordIndex u = j) := by
        rw [List.filter_cons, if_neg (by simp [hj])]
      rw [hfilter]

theorem fogEditLoop_length (reveal : Option Bool) (cells : List ℤ) :
    ∀ (arr : List ℤ), (∀ t ∈ cells, 0 ≤ fogWordIndex t) →
    (fogEditLoop reveal arr cells).length
      = cells.foldl (fun n t => max n ((fogWordIndex t).toNat + 1)) arr.length := by
  induction cells with
  | nil => intro arr _; rfl
  | cons t ts ih =>
    intro arr h
    have ht : 0 ≤ fogWordIndex t := h t (List.mem_cons_self t ts)
    have hts : ∀ u ∈ ts, 0 ≤ fogWordIndex u := fun u hu => h u (List.mem_cons_of_mem t hu)
    have hloop : fogEditLoop reveal arr (t :: ts)
        = fogEditLoop reveal (fogApplyCell reveal arr t) ts := rfl
    have hstep : (fogApplyCell reveal arr t).length = max arr.length ((fogWordIndex t).toNat + 1) :=
      jsArraySet_length arr _ ht
    rw [hloop, ih _ hts, hstep]
    rfl

theorem foldl_max_bounded (g : ℤ → ℕ) (cells : List ℤ) :
    ∀ n : ℕ, (∀ t ∈ cells, g t ≤ n) → cells.foldl (fun m t => max m (g t)) n = n := by
  induction cells with
  | nil => intro n _; rfl
  | cons t ts ih =>
    intro n h
    have ht : g t ≤ n := h t (List.mem_cons_self t ts)
    have : max n (g t) = n := by omega
    show List.foldl _ (max n (g t)) ts = n
    rw [this]
    exact ih n (fun u hu => h u (List.mem_cons_of_mem t hu))

theorem foldl_max_shift (g : ℤ → ℕ) (cells : List ℤ) :
    ∀ n : ℕ, cells.foldl (fun m t => max m (g t)) n
      = max n (cells.foldl (fun m t => max m (g t)) 0) := by
  induction cells with
  | nil => intro n; simp
  | cons t ts ih =>
    intro n
    show List.foldl _ (max n (g t)) ts = max n (List.foldl _ (max 0 (g t)) ts)
    rw [ih (max n (g t)), ih (max 0 (g t))]
    omega

theorem fogEditLoop_length_preserved (reveal : Option Bool) (cells : List ℤ) (arr : List ℤ)
    (h : ∀ t ∈ cells, 0 ≤ fogWordIndex t ∧ (fogWordIndex t).toNat < arr.length) :
    (fogEditLoop reveal arr cells).length = arr.length := by
  rw [fogEditLoop_length reveal cells arr (fun t ht => (h t ht).1)]
  exact foldl_max_bounded _ cells arr.length (fun t ht => (h t ht).2)

/-! The inclusive integer loop range. -/

theorem mem_intRange {a b v : ℤ} : v ∈ intRange a b ↔ a ≤ v ∧ v ≤ b := by
  unfold intRange
  rw [List.mem_map]
  constructor
  · rintro ⟨k, hk, rfl⟩
    rw [List.mem_range] at hk
    omega
  · rintro ⟨h1, h2⟩
    refine ⟨(v - a).toNat, ?_, ?_⟩
    · rw [List.mem_range]
      omega
    · omega

theorem intRange_empty {a b : ℤ} (h : b < a) : intRange a b = [] := by
  unfold intRange
  have : (b + 1 - a).toNat = 0 := by omega
  rw [this]
  rfl

theorem mem_fogCells {w h : ℤ} {s e : ℚ × ℚ} {t : ℤ} :
    t ∈ fogCells w h s e ↔ ∃ y x, (fogStartY h s e ≤ y ∧ y ≤ fogEndY h s e)
      ∧ (fogStartX w s e ≤ x ∧ x ≤ fogEndX w s e) ∧ t = x + y * w := by
  unfold fogCells
  simp only [List.mem_flatMap, List.mem_map, mem_intRange]
  constructor
  · rintro ⟨y, hy, x, hx, rfl⟩
    exact ⟨y, x, hy, hx, rfl⟩
  · rintro ⟨y, x, hy, hx, rfl⟩
    exact ⟨y, hy, x, hx, rfl⟩

theorem fogStartX_nonneg (w : ℤ) (s e : ℚ × ℚ) : 0 ≤ fogStartX w s e := le_max_left 0 _

theorem fogStartY_nonneg (h : ℤ) (s e : ℚ × ℚ) : 0 ≤ fogStartY h s e := le_max_left 0 _

theorem fogEndX_le (w : ℤ) (s e : ℚ × ℚ) (hw : 0 ≤ w) : fogEndX w s e ≤ w := by
  unfold fogEndX clamp
  have := min_le_left w ⌊max (s.1 + (w : ℚ) / 2) (e.1 + (w : ℚ) / 2) - 1 / 2⌋
  omega

theorem fogEndY_le (h : ℤ) (s e : ℚ × ℚ) (hh : 0 ≤ h) : fogEndY h s e ≤ h := by
  unfold fogEndY clamp
  have := min_le_left h ⌊max (s.2 + (h : ℚ) / 2) (e.2 + (h : ℚ) / 2) - 1 / 2⌋
  omega

/-! Unsigned patterns of the per-cell masks and word operations. -/

/-- The unsigned 32-bit pattern of `1 << (t & 0x1f)`: a single bit at
position `t mod 32`. -/
def maskPat (t : ℤ) : ℕ := 2 ^ ((t % 32).toNat)

theorem maskPat_lt (t : ℤ) : maskPat t < 4294967296 := by
  unfold maskPat
  have h1 : (t % 32).toNat < 32 := by omega
  calc 2 ^ ((t % 32).toNat) < 2 ^ 32 := Nat.pow_lt_pow_right (by norm_num) h1
    _ = 4294967296 := by norm_num

theorem land_31_eq_mod (x : ℕ) : x &&& 31 = x % 32 := by
  apply Nat.eq_of_testBit_eq
  intro i
  have h31 : (31 : ℕ) = 2 ^ 5 - 1 := by norm_num
  have h32 : (32 : ℕ) = 2 ^ 5 := by norm_num
  rw [Nat.testBit_land, h31, Nat.testBit_two_pow_sub_one, h32, Nat.testBit_mod_two_pow]
  exact Bool.and_comm _ _

theorem toU32_fogMask (t : ℤ) : toU32 (fogMask t) = maskPat t := by
  have h31 : toU32 31 = 31 := by decide
  have hand : toU32 t &&& 31 = (t % 32).toNat := by
    rw [land_31_eq_mod]
    unfold toU32
    omega
  have hlt : toU32 t &&& 31 < 4294967296 := land_lt_u32 31 (toU32_lt t)
  have hsmall : (t % 32).toNat < 32 := by omega
  unfold fogMask jsShiftLeft1 jsAnd
  rw [h31, toU32_ofU32 hlt, hand, Nat.mod_eq_of_lt (by omega)]
  exact toU32_ofU32 (maskPat_lt t)

/-- The pattern-level counterpart of `fogWordOp`. -/
def patOp (reveal : Option Bool) (p m : ℕ) : ℕ :=
  match reveal with
  | none => p ^^^ m
  | some true => p ||| m
  | some false => p &&& (m ^^^ 4294967295)

theorem patOp_lt (reveal : Option Bool) {p : ℕ} (m : ℕ) (hp : p < 4294967296)
    (hm : m < 4294967296) : patOp reveal p m < 4294967296 := by
  match reveal with
  | none => exact xor_lt_u32 hp hm
  | some true => exact lor_lt_u32 hp hm
  | some false => exact land_lt_u32 _ hp

theorem fogWordOp_pat (reveal : Option Bool) (a t : ℤ) :
    fogWordOp reveal a (fogMask t) = ofU32 (patOp reveal (toU32 a) (maskPat t)) := by
  match reveal with
  | none =>
    show jsXor a (fogMask t) = _
    unfold jsXor
    rw [toU32_fogMask]
    rfl
  | some true =>
    show jsOr a (fogMask t) = _
    unfold jsOr
    rw [toU32_fogMask]
    rfl
  | some false =>
    show jsAnd a (jsNot (fogMask t)) = _
    unfold jsAnd jsNot
    rw [toU32_fogMask,
      toU32_ofU32 (xor_lt_u32 (maskPat_lt t) (by norm_num))]
    rfl

/-- The pattern-level fold of word updates. -/
def patFold (reveal : Option Bool) (p : ℕ) (ts : List ℤ) : ℕ :=
  ts.foldl (fun q t => patOp reveal q (maskPat t)) p

theorem patFold_lt (reveal : Option Bool) (ts : List ℤ) :
    ∀ {p : ℕ}, p < 4294967296 → patFold reveal p ts < 4294967296 := by
  induction ts with
  | nil => intro p hp; exact hp
  | cons t ts ih =>
    intro p hp
    exact ih (patOp_lt reveal (maskPat t) hp (maskPat_lt t))

theorem fogWordFold_pat (reveal : Option Bool) (ts : List ℤ) :
    ∀ b : ℤ, fogWordFold reveal b ts
      = if ts.isEmpty then b else ofU32 (patFold reveal (toU32 b) ts) := by
  induction ts with
  | nil => intro b; rfl
  | cons t ts ih =>
    intro b
    have hstep : fogWordFold reveal b (t :: ts)
        = fogWordFold reveal (fogWordOp reveal b (fogMask t)) ts := rfl
    rw [hstep, ih, fogWordOp_pat]
    have hplt : patOp reveal (toU32 b) (maskPat t) < 4294967296 :=
      patOp_lt reveal (maskPat t) (toU32_lt b) (maskPat_lt t)
    cases ts with
    | nil => simp [patFold, List.isEmpty]
    | cons u us =>
      have h1 : ((t :: u :: us : List ℤ).isEmpty) = false := rfl
      have h2 : ((u :: us : List ℤ).isEmpty) = false := rfl
      rw [h1, h2, if_neg (by simp), if_neg (by simp), toU32_ofU32 hplt]
      rfl

/-! Big-or of the masks hitting one word, and bit-level descriptions of the
three fold shapes. -/

/-- Or of all masks of the cells `ts`. -/
def bigOrPat (ts : List ℤ) : ℕ := ts.foldl (fun p t => p ||| maskPat t) 0

theorem foldl_lor_shift (ts : List ℤ) :
    ∀ p : ℕ, ts.foldl (fun q t => q ||| maskPat t) p = p ||| bigOrPat ts := by
  induction ts with
  | nil =>
    intro p
    show p = p ||| bigOrPat []
    rw [show bigOrPat [] = 0 from rfl, Nat.or_zero]
  | cons t ts ih =>
    intro p
    show List.foldl _ (p ||| maskPat t) ts = _
    rw [ih (p ||| maskPat t)]
    show _ = p ||| bigOrPat (t :: ts)
    rw [show bigOrPat (t :: ts) = List.foldl (fun q u => q ||| maskPat u) (0 ||| maskPat t) ts
        from rfl,
      ih (0 ||| maskPat t), Nat.lor_assoc, Nat.zero_or]

theorem bigOrPat_cons (t : ℤ) (ts : List ℤ) :
    bigOrPat (t :: ts) = maskPat t ||| bigOrPat ts := by
  rw [show bigOrPat (t :: ts) = List.foldl (fun q u => q ||| maskPat u) (0 ||| maskPat t) ts
      from rfl,
    foldl_lor_shift ts (0 ||| maskPat t), Nat.zero_or]

theorem testBit_bigOrPat (ts : List ℤ) (i : ℕ) :
    (bigOrPat ts).testBit i = ts.any (fun t => (maskPat t).testBit i) := by
  induction ts with
  | nil => simp [bigOrPat]
  | cons t ts ih =>
    rw [bigOrPat_cons, Nat.testBit_lor, ih]
    simp

theorem bigOrPat_lt (ts : List ℤ) : bigOrPat ts < 4294967296 := by
  induction ts with
  | nil => norm_num [bigOrPat]
  | cons t ts ih =>
    rw [bigOrPat_cons]
    exact lor_lt_u32 (maskPat_lt t) ih

/-- Xor of all masks of the cells `ts`. -/
def bigXorPat (ts : List ℤ) : ℕ := ts.foldl (fun p t => p ^^^ maskPat t) 0

theorem foldl_xor_shift (ts : List ℤ) :
    ∀ p : ℕ, ts.foldl (fun q t => q ^^^ maskPat t) p = p ^^^ bigXorPat ts := by
  induction ts with
  | nil =>
    intro p
    show p = p ^^^ bigXorPat []
    rw [show bigXorPat [] = 0 from rfl, Nat.xor_zero]
  | cons t ts ih =>
    intro p
    show List.foldl _ (p ^^^ maskPat t) ts = _
    rw [ih (p ^^^ maskPat t)]
    show _ = p ^^^ bigXorPat (t :: ts)
    rw [show bigXorPat (t :: ts) = List.foldl (fun q u => q ^^^ maskPat u) (0 ^^^ maskPat t) ts
        from rfl,
      ih (0 ^^^ maskPat t), Nat.xor_assoc, Nat.zero_xor]

theorem patFold_reveal_eq (p : ℕ) (ts : List ℤ) :
    patFold (some true) p ts = p ||| bigOrPat ts :=
  foldl_lor_shift ts p

theorem patFold_toggle_eq (p : ℕ) (ts : List ℤ) :
    patFold none p ts = p ^^^ bigXorPat ts :=
  foldl_xor_shift ts p

theorem testBit_patFold_cover (ts : List ℤ) {i : ℕ} (hi : i < 32) :
    ∀ p : ℕ, (patFold (some false) p ts).testBit i
      = (p.testBit i && !((bigOrPat ts).testBit i)) := by
  induction ts with
  | nil =>
    intro p
    show p.testBit i = _
    simp [bigOrPat]
  | cons t ts ih =>
    intro p
    have hstep : patFold (some false) p (t :: ts)
        = patFold (some false) (p &&& (maskPat t ^^^ 4294967295)) ts := rfl
    rw [hstep, ih, bigOrPat_cons, Nat.testBit_lor, Nat.testBit_land, Nat.testBit_xor]
    have hones : (4294967295 : ℕ).testBit i = true := by
      rw [show (4294967295 : ℕ) = 2 ^ 32 - 1 by norm_num, Nat.testBit_two_pow_sub_one]
      simpa using hi
    rw [hones]
    cases p.testBit i <;> cases (maskPat t).testBit i <;>
      cases (bigOrPat ts).testBit i <;> rfl

/-! Word-level laws: toggling twice is the identity, and revealing after
covering restores a word whose touched bits were all set. -/

theorem fogWordFold_toggle_toggle {b : ℤ} (hb : isInt32 b) (ts : List ℤ) :
    fogWordFold none (fogWordFold none b ts) ts = b := by
  by_cases hts : ts.isEmpty = true
  · have : ts = [] := by
      cases ts with
      | nil => rfl
      | cons u us => simp at hts
    subst this
    rfl
  · rw [fogWordFold_pat none ts b, if_neg hts, fogWordFold_pat none ts _, if_neg hts,
      toU32_ofU32 (patFold_lt none ts (toU32_lt b))]
    rw [patFold_toggle_eq, patFold_toggle_eq, Nat.xor_assoc, Nat.xor_self, Nat.xor_zero]
    exact ofU32_toU32 hb

theorem fogWordFold_cover_reveal {b : ℤ} (hb : isInt32 b) (ts : List ℤ)
    (hbits : ∀ t ∈ ts, (toU32 b).testBit ((t % 32).toNat) = true) :
    fogWordFold (some true) (fogWordFold (some false) b ts) ts = b := by
  by_cases hts : ts.isEmpty = true
  · have : ts = [] := by
      cases ts with
      | nil => rfl
      | cons u us => simp at hts
    subst this
    rfl
  · rw [fogWordFold_pat (some false) ts b, if_neg hts, fogWordFold_pat (some true) ts _,
      if_neg hts, toU32_ofU32 (patFold_lt (some false) ts (toU32_lt b))]
    have hC : patFold (some false) (toU32 b) ts < 4294967296 :=
      patFold_lt (some false) ts (toU32_lt b)
    have hkey : patFold (some true) (patFold (some false) (toU32 b) ts) ts = toU32 b := by
      rw [patFold_reveal_eq]
      apply Nat.eq_of_testBit_eq
      intro i
      by_cases hi : i < 32
      · rw [Nat.testBit_lor, testBit_patFold_cover ts hi]
        cases hP : (bigOrPat ts).testBit i
        · simp
        · rw [testBit_bigOrPat] at hP
          rcases List.any_eq_true.1 hP with ⟨t, ht, hmask⟩
          have hidx : ((t % 32).toNat) = i := by
            rw [maskPat, Nat.testBit_two_pow] at hmask
            exact of_decide_eq_true hmask
          have hbt := hbits t ht
          rw [hidx] at hbt
          rw [hbt]
          simp
      · push_neg at hi
        rw [high_bit_false_of_lt (lor_lt_u32 hC (bigOrPat_lt ts)) hi,
          high_bit_false_of_lt (toU32_lt b) hi]
    rw [hkey]
    exact ofU32_toU32 hb

/-! Assembly: from per-word equalities back to array equalities, and the
arithmetic locating each cell's word inside the bitmask. -/

theorem list_eq_of_jsArrayGet {A C : List ℤ} (hlen : A.length = C.length)
    (h : ∀ j : ℤ, jsArrayGet A j = jsArrayGet C j) : A = C := by
  apply List.ext_getElem hlen
  intro n h1 h2
  have hn := h (n : ℤ)
  rw [jsArrayGet_nonneg _ (Int.natCast_nonneg n), jsArrayGet_nonneg _ (Int.natCast_nonneg n),
    List.getD_eq_getElem?_getD, List.getD_eq_getElem?_getD, Int.toNat_natCast,
    List.getElem?_eq_getElem h1, List.getElem?_eq_getElem h2] at hn
  simpa using hn

theorem toInt32_eq_self {a : ℤ} (h : isInt32 a) : toInt32 a = a := ofU32_toU32 h

theorem fogWordIndex_eq_ediv {t : ℤ} (h0 : 0 ≤ t) (hlt : t < 2147483648) :
    fogWordIndex t = t / 32 := by
  unfold fogWordIndex jsShiftRight5
  rw [toInt32_eq_self ⟨by omega, hlt⟩]
  exact Int.fdiv_eq_ediv t (by norm_num)

theorem allocLen_mul (w h : ℤ) (hwh : 0 ≤ w * h) :
    w * h ≤ (allocLen w h : ℤ) * 32 ∧ (allocLen w h : ℤ) = ⌈((w * h : ℤ) : ℚ) / 32⌉ := by
  unfold allocLen
  have hnn : (0 : ℚ) ≤ ((w * h : ℤ) : ℚ) / 32 := by
    apply div_nonneg _ (by norm_num)
    exact_mod_cast hwh
  have hceilnn : 0 ≤ ⌈((w * h : ℤ) : ℚ) / 32⌉ := Int.ceil_nonneg hnn
  rw [Int.toNat_of_nonneg hceilnn]
  refine ⟨?_, rfl⟩
  have hceil := Int.le_ceil (((w * h : ℤ) : ℚ) / 32)
  have := (div_le_iff (by norm_num : (0 : ℚ) < 32)).1 hceil
  exact_mod_cast this

theorem fogWordIndex_bounds {w h t : ℤ} (hw : 0 < w) (hh : 0 < h)
    (h0 : 0 ≤ t) (hlt : t < w * h) (hbound : w * h ≤ 2147483648) :
    0 ≤ fogWordIndex t ∧ (fogWordIndex t).toNat < allocLen w h := by
  have ht32 : t < 2147483648 := by omega
  rw [fogWordIndex_eq_ediv h0 ht32]
  have hC := (allocLen_mul w h (by positivity)).1
  have hdnn : 0 ≤ t / 32 := Int.ediv_nonneg h0 (by norm_num)
  refine ⟨hdnn, ?_⟩
  have hdlt : t / 32 < (allocLen w h : ℤ) := by
    rw [Int.ediv_lt_iff_lt_mul (by norm_num : (0 : ℤ) < 32)]
    omega
  omega

theorem fogCells_in_grid {w h : ℤ} {s e : ℚ × ℚ} (hw : 0 < w) (hh : 0 < h)
    (hex : fogEndX w s e < w) (hey : fogEndY h s e < h) :
    ∀ t ∈ fogCells w h s e, 0 ≤ t ∧ t < w * h := by
  intro t ht
  rcases mem_fogCells.1 ht with ⟨y, x, ⟨hy1, hy2⟩, ⟨hx1, hx2⟩, rfl⟩
  have hx0 : 0 ≤ x := le_trans (fogStartX_nonneg w s e) hx1
  have hy0 : 0 ≤ y := le_trans (fogStartY_nonneg h s e) hy1
  have hyw : 0 ≤ y * w := mul_nonneg hy0 (le_of_lt hw)
  refine ⟨by omega, ?_⟩
  have hxw : x ≤ w - 1 := by omega
  have hyh : y ≤ h - 1 := by omega
  have hmul : y * w ≤ (h - 1) * w := mul_le_mul_of_nonneg_right hyh (le_of_lt hw)
  have hexp : (h - 1) * w = w * h - w := by ring
  omega

theorem fogCells_bounded {w h : ℤ} {s e : ℚ × ℚ} (hw : 0 < w) (hh : 0 < h) :
    ∀ t ∈ fogCells w h s e, 0 ≤ t ∧ t ≤ w * (h + 1) := by
  intro t ht
  rcases mem_fogCells.1 ht with ⟨y, x, ⟨hy1, hy2⟩, ⟨hx1, hx2⟩, rfl⟩
  have hx0 : 0 ≤ x := le_trans (fogStartX_nonneg w s e) hx1
  have hy0 : 0 ≤ y := le_trans (fogStartY_nonneg h s e) hy1
  have hyw : 0 ≤ y * w := mul_nonneg hy0 (le_of_lt hw)
  refine ⟨by omega, ?_⟩
  have hxw : x ≤ w := le_trans hx2 (fogEndX_le w s e (le_of_lt hw))
  have hyh : y ≤ h := le_trans hy2 (fogEndY_le h s e (le_of_lt hh))
  have hmul : y * w ≤ h * w := mul_le_mul_of_nonneg_right hyh (le_of_lt hw)
  have hexp : w * (h + 1) = w + h * w := by ring
  omega

/-- Ceiling as negated floor, used to evaluate `⌈·⌉` on rational literals. -/
theorem ceil_eq_neg_floor_neg (a : ℚ) : ⌈a⌉ = -⌊-a⌋ := by
  rw [Int.floor_neg, neg_neg]

theorem changeFogOfWarBitmask_some (reveal : Option Bool) (B : List ℤ) (w h : ℤ)
    (s e : ℚ × ℚ) :
    changeFogOfWarBitmask reveal (some B) w h s e = fogEditLoop reveal B (fogCells w h s e) :=
  rfl

/-- C6: a fog edit on a map with no prior bitmask starts from a freshly
allocated baseline of length `ceil(fogWidth * fogHeight / 32)` whose every
word is `-1` (all cells revealed), and the edit proceeds from that
baseline. -/
theorem changeFogOfWarBitmask_default_baseline (reveal : Option Bool) (w h : ℤ)
    (s e : ℚ × ℚ) (hwh : 0 ≤ w * h) :
    changeFogOfWarBitmask reveal none w h s e
      = changeFogOfWarBitmask reveal (some (List.replicate (allocLen w h) (-1))) w h s e
    ∧ ((List.replicate (allocLen w h) (-1 : ℤ)).length : ℤ) = ⌈((w * h : ℤ) : ℚ) / 32⌉
    ∧ ∀ x ∈ List.replicate (allocLen w h) (-1 : ℤ), x = -1 := by
  refine ⟨rfl, ?_, fun x hx => List.eq_of_mem_replicate hx⟩
  rw [List.length_replicate]
  exact (allocLen_mul w h hwh).2

/-- C6 witness: a 1-by-1 grid allocates a single all-ones word. -/
theorem changeFogOfWarBitmask_default_baseline_witness :
    (0 : ℤ) ≤ 1 * 1
    ∧ (changeFogOfWarBitmask (some true) none 1 1 (0, 0) (0, 0)
        = changeFogOfWarBitmask (some true)
            (some (List.replicate (allocLen 1 1) (-1))) 1 1 (0, 0) (0, 0)
      ∧ ((List.replicate (allocLen 1 1) (-1 : ℤ)).length : ℤ) = ⌈((1 * 1 : ℤ) : ℚ) / 32⌉
      ∧ ∀ x ∈ List.replicate (allocLen 1 1) (-1 : ℤ), x = -1) :=
  ⟨by norm_num, changeFogOfWarBitmask_default_baseline (some true) 1 1 (0, 0) (0, 0) (by norm_num)⟩

theorem roundAxisPair_spec (a b : ℚ) :
    roundAxisPair a b
      = (if a ≤ b then (((⌊a⌋ : ℤ) : ℚ), ((⌈b⌉ : ℤ) : ℚ) - 1 / 100)
         else (((⌈a⌉ : ℤ) : ℚ) - 1 / 100, ((⌊b⌋ : ℤ) : ℚ)))
    ∧ min (roundAxisPair a b).1 (roundAxisPair a b).2 ≤ min a b
    ∧ max a b ≤ max (roundAxisPair a b).1 (roundAxisPair a b).2 + 1 / 100 := by
  unfold roundAxisPair
  by_cases hab : a ≤ b
  · rw [if_pos hab]
    refine ⟨rfl, ?_, ?_⟩
    · calc min ((⌊a⌋ : ℚ)) (((⌈b⌉ : ℤ) : ℚ) - 1 / 100) ≤ (⌊a⌋ : ℚ) := min_le_left _ _
        _ ≤ a := Int.floor_le a
        _ = min a b := (min_eq_left hab).symm
    · calc max a b = b := max_eq_right hab
        _ ≤ (⌈b⌉ : ℚ) := Int.le_ceil b
        _ = (((⌈b⌉ : ℤ) : ℚ) - 1 / 100) + 1 / 100 := by ring
        _ ≤ max ((⌊a⌋ : ℚ)) (((⌈b⌉ : ℤ) : ℚ) - 1 / 100) + 1 / 100 := by
            have := le_max_right ((⌊a⌋ : ℚ)) (((⌈b⌉ : ℤ) : ℚ) - 1 / 100)
            linarith
  · rw [if_neg hab]
    have hba : b ≤ a := le_of_not_le hab
    refine ⟨rfl, ?_, ?_⟩
    · calc min (((⌈a⌉ : ℤ) : ℚ) - 1 / 100) ((⌊b⌋ : ℚ)) ≤ (⌊b⌋ : ℚ) := min_le_right _ _
        _ ≤ b := Int.floor_le b
        _ = min a b := (min_eq_right hba).symm
    · calc max a b = a := max_eq_left hba
        _ ≤ (⌈a⌉ : ℚ) := Int.le_ceil a
        _ = (((⌈a⌉ : ℤ) : ℚ) - 1 / 100) + 1 / 100 := by ring
        _ ≤ max (((⌈a⌉ : ℤ) : ℚ) - 1 / 100) ((⌊b⌋ : ℚ)) + 1 / 100 := by
            have := le_max_left (((⌈a⌉ : ℤ) : ℚ) - 1 / 100) ((⌊b⌋ : ℚ))
            linarith

/-- C7: `roundVectors` rounds each axis of the offset-adjusted points
outward: the lesser coordinate is floored and the greater is ceiled minus
the epsilon `0.01` (crossed over when `start > end`), so on each axis the
returned pair brackets the dragged interval up to the epsilon, for every
input ordering. -/
theorem roundVectors_spec (s e : V3) :
    ((roundVectors s e).1.x, (roundVectors s e).2.x)
      = (if s.x ≤ e.x then (((⌊s.x⌋ : ℤ) : ℚ), ((⌈e.x⌉ : ℤ) : ℚ) - 1 / 100)
         else (((⌈s.x⌉ : ℤ) : ℚ) - 1 / 100, ((⌊e.x⌋ : ℤ) : ℚ)))
    ∧ ((roundVectors s e).1.z, (roundVectors s e).2.z)
      = (if s.z ≤ e.z then (((⌊s.z⌋ : ℤ) : ℚ), ((⌈e.z⌉ : ℤ) : ℚ) - 1 / 100)
         else (((⌈s.z⌉ : ℤ) : ℚ) - 1 / 100, ((⌊e.z⌋ : ℤ) : ℚ)))
    ∧ min (roundVectors s e).1.x (roundVectors s e).2.x ≤ min s.x e.x
    ∧ max s.x e.x ≤ max (roundVectors s e).1.x (roundVectors s e).2.x + 1 / 100
    ∧ min (roundVectors s e).1.z (roundVectors s e).2.z ≤ min s.z e.z
    ∧ max s.z e.z ≤ max (roundVectors s e).1.z (roundVectors s e).2.z + 1 / 100 := by
  have hx := roundAxisPair_spec s.x e.x
  have hz := roundAxisPair_spec s.z e.z
  have h1 : (roundVectors s e).1.x = (roundAxisPair s.x e.x).1 := rfl
  have h2 : (roundVectors s e).2.x = (roundAxisPair s.x e.x).2 := rfl
  have h3 : (roundVectors s e).1.z = (roundAxisPair s.z e.z).1 := rfl
  have h4 : (roundVectors s e).2.z = (roundAxisPair s.z e.z).2 := rfl
  rw [h1, h2, h3, h4]
  refine ⟨?_, ?_, hx.2.1, hx.2.2, hz.2.1, hz.2.2⟩
  · rw [← hx.1]
  · rw [← hz.1]

/-- C8: during an in-progress fog-of-war drag, a tick of the 100ms auto-pan
timer emits a camera adjustment exactly when the screen pointer is within
the border distance of a viewport edge, the border distance being the
minimum of 30 screen-units and a tenth of the viewport's width and
height. -/
theorem autoPanForFogOfWarRect_emits_iff (px py w h : ℚ) :
    autoPanIntervalMilliseconds = 100
    ∧ ((autoPanForFogOfWarRect px py w h).isSome ↔
        (px < min FOG_RECT_DRAG_BORDER (min (w / 10) (h / 10))
         ∨ w - px < min FOG_RECT_DRAG_BORDER (min (w / 10) (h / 10))
         ∨ py < min FOG_RECT_DRAG_BORDER (min (w / 10) (h / 10))
         ∨ h - py < min FOG_RECT_DRAG_BORDER (min (w / 10) (h / 10)))) := by
  refine ⟨rfl, ?_⟩
  set b := min FOG_RECT_DRAG_BORDER (min (w / 10) (h / 10)) with hb
  have hdx : (autoPanDelta px py w h).1
      = (if px < b then b - px else if px ≥ w - b then w - b - px else 0) := rfl
  have hdy : (autoPanDelta px py w h).2
      = (if py < b then b - py else if py ≥ h - b then h - b - py else 0) := rfl
  have hsome : ((autoPanForFogOfWarRect px py w h).isSome = true)
      ↔ ((autoPanDelta px py w h).1 ≠ 0 ∨ (autoPanDelta px py w h).2 ≠ 0) := by
    unfold autoPanForFogOfWarRect
    by_cases hc : ((autoPanDelta px py w h).1 ≠ 0 ∨ (autoPanDelta px py w h).2 ≠ 0)
    · rw [if_pos hc]
      simp [hc]
    · rw [if_neg hc]
      simp [hc]
  have hx : ((if px < b then b - px else if px ≥ w - b then w - b - px else 0) ≠ 0)
      ↔ (px < b ∨ w - px < b) := by
    by_cases h1 : px < b
    · rw [if_pos h1]
      constructor
      · intro _
        exact Or.inl h1
      · intro _
        intro hc
        rw [sub_eq_zero] at hc
        exact absurd hc.symm (ne_of_lt h1)
    · rw [if_neg h1]
      by_cases h2 : px ≥ w - b
      · rw [if_pos h2]
        constructor
        · intro hne
          right
          rcases lt_or_eq_of_le h2 with hlt | heq
          · linarith
          · exact absurd (by rw [← heq]; ring) hne
        · intro hor
          rcases hor with hl | hr
          · exact absurd hl h1
          · intro hc
            have : px = w - b := by linarith [sub_eq_zero.1 hc]
            linarith
      · rw [if_neg h2]
        push_neg at h1 h2
        constructor
        · intro hc; exact absurd rfl hc
        · rintro (hl | hr)
          · linarith
          · linarith
  have hy : ((if py < b then b - py else if py ≥ h - b then h - b - py else 0) ≠ 0)
      ↔ (py < b ∨ h - py < b) := by
    by_cases h1 : py < b
    · rw [if_pos h1]
      constructor
      · intro _; exact Or.inl h1
      · intro _; intro hc; rw [sub_eq_zero] at hc; exact absurd hc.symm (ne_of_lt h1)
    · rw [if_neg h1]
      by_cases h2 : py ≥ h - b
      · rw [if_pos h2]
        constructor
        · intro hne
          right
          rcases lt_or_eq_of_le h2 with hlt | heq
          · linarith
          · exact absurd (by rw [← heq]; ring) hne
        · intro hor
          rcases hor with hl | hr
          · exact absurd hl h1
          · intro hc
            have : py = h - b := by linarith [sub_eq_zero.1 hc]
            linarith
      · rw [if_neg h2]
        push_neg at h1 h2
        constructor
        · intro hc; exact absurd rfl hc
        · rintro (hl | hr)
          · linarith
          · linarith
  rw [show ((autoPanForFogOfWarRect px py w h).isSome
      ↔ (px < b ∨ w - px < b ∨ py < b ∨ h - py < b))
    = (((autoPanForFogOfWarRect px py w h).isSome = true)
      ↔ (px < b ∨ w - px < b ∨ py < b ∨ h - py < b)) from rfl, hsome, hdx, hdy]
  constructor
  · rintro (hcx | hcy)
    · rcases hx.1 hcx with hl | hr
      · exact Or.inl hl
      · exact Or.inr (Or.inl hr)
    · rcases hy.1 hcy with hl | hr
      · exact Or.inr (Or.inr (Or.inl hl))
      · exact Or.inr (Or.inr (Or.inr hr))
  · rintro (h1 | h2 | h3 | h4)
    · exact Or.inl (hx.2 (Or.inl h1))
    · exact Or.inl (hx.2 (Or.inr h2))
    · exact Or.inr (hy.2 (Or.inl h3))
    · exact Or.inr (hy.2 (Or.inr h4))

/-- C9 counterexample: an action carrying the (falsy) empty-string
`fromPeerId` is treated as local — the reducer adopts the action's user
instead of keeping the prior state, so "carries a fromPeerId implies state
unchanged" fails as stated. -/
theorem loggedInUserReducer_empty_fromPeerId :
    loggedInUserReducer (some (0 : ℕ))
        ⟨LoggedInUserActionType.setLoggedInUser, some 1, some ""⟩ = some 1
    ∧ (some "" : Option String) ≠ none
    ∧ (some (1 : ℕ)) ≠ some 0 := by
  refine ⟨?_, by decide, by decide⟩
  rfl

/-- C9 (amended): on a set-logged-in-user action the reducer keeps the
prior state whenever the action carries a non-empty `fromPeerId`
(JavaScript truthiness), and adopts the action's user exactly when
`fromPeerId` is absent or the empty string. -/
theorem loggedInUserReducer_spec {U : Type} (state user : Option U) (fp : Option String) :
    (∀ p, fp = some p → p ≠ "" →
      loggedInUserReducer state ⟨LoggedInUserActionType.setLoggedInUser, user, fp⟩ = state)
    ∧ (fp = none →
      loggedInUserReducer state ⟨LoggedInUserActionType.setLoggedInUser, user, fp⟩ = user)
    ∧ (fp = some "" →
      loggedInUserReducer state ⟨LoggedInUserActionType.setLoggedInUser, user, fp⟩ = user) := by
  refine ⟨?_, ?_, ?_⟩
  · intro p hp hne
    subst hp
    show (if jsTruthyString (some p) then state else user) = state
    rw [if_pos]
    simp [jsTruthyString, hne]
  · intro hp
    subst hp
    rfl
  · intro hp
    subst hp
    rfl

/-- C9 witness: a peer-originated action (non-empty peer id) leaves the
logged-in user unchanged; a local action (no fromPeerId) replaces it. -/
theorem loggedInUserReducer_spec_witness :
    loggedInUserReducer (some (5 : ℕ))
        ⟨LoggedInUserActionType.setLoggedInUser, some 7, some "peer"⟩ = some 5
    ∧ loggedInUserReducer (some (5 : ℕ))
        ⟨LoggedInUserActionType.setLoggedInUser, some 7, none⟩ = some 7 :=
  ⟨(loggedInUserReducer_spec (some 5) (some 7) (some "peer")).1 "peer" rfl (by decide),
   (loggedInUserReducer_spec (some 5) (some 7) none).2.1 rfl⟩

/-- C2 counterexample: with `fogWidth = 0` (so `fogWidth * fogHeight = 0`)
the edit is not a no-op: both x bounds clamp to `[0, 0]`, the loop still
runs over the y range and ors bit 0 into word 0, turning the input `[0]`
into `[1]`. -/
theorem changeFogOfWarBitmask_degenerate_not_noop :
    (0 : ℤ) * 5 = 0
    ∧ changeFogOfWarBitmask (some true) (some [0]) 0 5 (0, -5/2) (1, 1/2) ≠ [0] := by
  refine ⟨by norm_num, ?_⟩
  have hsx : fogStartX 0 ((0 : ℚ), (-5/2 : ℚ)) ((1 : ℚ), (1/2 : ℚ)) = 0 := by
    unfold fogStartX clamp
    norm_num
  have hex : fogEndX 0 ((0 : ℚ), (-5/2 : ℚ)) ((1 : ℚ), (1/2 : ℚ)) = 0 := by
    unfold fogEndX clamp
    norm_num
  have hsy : fogStartY 5 ((0 : ℚ), (-5/2 : ℚ)) ((1 : ℚ), (1/2 : ℚ)) = 0 := by
    unfold fogStartY clamp
    norm_num
  have hey : fogEndY 5 ((0 : ℚ), (-5/2 : ℚ)) ((1 : ℚ), (1/2 : ℚ)) = 2 := by
    unfold fogEndY clamp
    norm_num
  have hcells : fogCells 0 5 ((0 : ℚ), (-5/2 : ℚ)) ((1 : ℚ), (1/2 : ℚ)) = [0, 0, 0] := by
    unfold fogCells
    rw [hsx, hex, hsy, hey]
    decide
  rw [changeFogOfWarBitmask_some, hcells]
  decide

/-- C2 (amended): a degenerate grid (`fogWidth * fogHeight ≤ 0`) yields a
no-op only when the clamped y cell range is empty; in that case the edit
returns the input bitmask unchanged. -/
theorem changeFogOfWarBitmask_degenerate_noop (reveal : Option Bool) (B : List ℤ)
    (w h : ℤ) (s e : ℚ × ℚ) (hdeg : w * h ≤ 0)
    (hempty : fogEndY h s e < fogStartY h s e) :
    changeFogOfWarBitmask reveal (some B) w h s e = B := by
  have hcells : fogCells w h s e = [] := by
    unfold fogCells
    rw [intRange_empty hempty]
    rfl
  rw [changeFogOfWarBitmask_some, hcells]
  rfl

/-- C2 witness: with `fogWidth = 0`, `fogHeight = 5` and a drag whose
rounded y range is empty, the input bitmask comes back unchanged. -/
theorem changeFogOfWarBitmask_degenerate_noop_witness :
    (0 : ℤ) * 5 ≤ 0
    ∧ fogEndY 5 ((0 : ℚ), (-19/10 : ℚ)) ((0 : ℚ), (-19/10 : ℚ))
        < fogStartY 5 ((0 : ℚ), (-19/10 : ℚ)) ((0 : ℚ), (-19/10 : ℚ))
    ∧ changeFogOfWarBitmask (some true) (some [0]) 0 5
        ((0 : ℚ), (-19/10 : ℚ)) ((0 : ℚ), (-19/10 : ℚ)) = [0] := by
  have hempty : fogEndY 5 ((0 : ℚ), (-19/10 : ℚ)) ((0 : ℚ), (-19/10 : ℚ))
      < fogStartY 5 ((0 : ℚ), (-19/10 : ℚ)) ((0 : ℚ), (-19/10 : ℚ)) := by
    have h1 : fogStartY 5 ((0 : ℚ), (-19/10 : ℚ)) ((0 : ℚ), (-19/10 : ℚ)) = 1 := by
      unfold fogStartY clamp
      norm_num
    have h2 : fogEndY 5 ((0 : ℚ), (-19/10 : ℚ)) ((0 : ℚ), (-19/10 : ℚ)) = 0 := by
      unfold fogEndY clamp
      norm_num
    rw [h1, h2]
    norm_num
  exact ⟨by norm_num, hempty,
    changeFogOfWarBitmask_degenerate_noop (some true) [0] 0 5 _ _ (by norm_num) hempty⟩

set_option maxRecDepth 40000 in
/-- C1 (code-bug evidence): on a 32-by-1 fog grid the bitmask has
`ceil(32*1/32) = 1` word, yet a drag extending past the map clamps its
cell bounds to the INCLUSIVE upper limits `x ≤ 32`, `y ≤ 1`, and the loop
reaches flat indices up to `32 + 1*32 = 64`, word index 2 — outside the
array, which the write then grows to length 3. -/
theorem changeFogOfWarBitmask_word_index_overflow :
    allocLen 32 1 = 1
    ∧ (∃ t ∈ fogCells 32 1 ((-16 : ℚ), (-1/2 : ℚ)) ((17 : ℚ), (1 : ℚ)),
        (allocLen 32 1 : ℤ) ≤ fogWordIndex t)
    ∧ (changeFogOfWarBitmask (some true) (some [-1]) 32 1
        ((-16 : ℚ), (-1/2 : ℚ)) ((17 : ℚ), (1 : ℚ))).length = 3 := by
  have hA : allocLen 32 1 = 1 := by
    unfold allocLen
    rw [ceil_eq_neg_floor_neg]
    norm_num
  have hsx : fogStartX 32 ((-16 : ℚ), (-1/2 : ℚ)) ((17 : ℚ), (1 : ℚ)) = 0 := by
    unfold fogStartX clamp
    norm_num
  have hex : fogEndX 32 ((-16 : ℚ), (-1/2 : ℚ)) ((17 : ℚ), (1 : ℚ)) = 32 := by
    unfold fogEndX clamp
    norm_num
  have hsy : fogStartY 1 ((-16 : ℚ), (-1/2 : ℚ)) ((17 : ℚ), (1 : ℚ)) = 0 := by
    unfold fogStartY clamp
    norm_num
  have hey : fogEndY 1 ((-16 : ℚ), (-1/2 : ℚ)) ((17 : ℚ), (1 : ℚ)) = 1 := by
    unfold fogEndY clamp
    norm_num
  have hcells : fogCells 32 1 ((-16 : ℚ), (-1/2 : ℚ)) ((17 : ℚ), (1 : ℚ))
      = (intRange 0 1).flatMap (fun y => (intRange 0 32).map (fun x => x + y * 32)) := by
    unfold fogCells
    rw [hsx, hex, hsy, hey]
  refine ⟨hA, ?_, ?_⟩
  · rw [hcells, hA]
    decide
  · rw [changeFogOfWarBitmask_some, hcells]
    decide

theorem jsArrayGet_isInt32 {B : List ℤ} (hwords : ∀ x ∈ B, isInt32 x) (j : ℤ) :
    isInt32 (jsArrayGet B j) := by
  unfold jsArrayGet
  by_cases hj : 0 ≤ j
  · rw [if_pos hj, List.getD_eq_getElem?_getD]
    cases hel : B[j.toNat]? with
    | none =>
      show isInt32 0
      exact ⟨by norm_num, by norm_num⟩
    | some v =>
      show isInt32 v
      exact hwords v (List.getElem?_mem hel)
  · rw [if_neg hj]
    exact ⟨by norm_num, by norm_num⟩

/-- C3 (amended): for every well-formed bitmask and in-grid rectangle,
Cover immediately followed by Reveal restores the baseline bitmask
PROVIDED every touched cell's bit was set in the baseline (e.g. the
default all-revealed baseline) — that proviso conditions only the
cover/reveal conjunct; Toggle applied twice always restores the baseline,
whatever its bits. -/
theorem changeFogOfWarBitmask_roundtrip_involution
    (B : List ℤ) (w h : ℤ) (s e : ℚ × ℚ)
    (hw : 0 < w) (hh : 0 < h) (hwh : w * h ≤ 2147483648)
    (hlen : B.length = allocLen w h)
    (hwords : ∀ x ∈ B, isInt32 x)
    (hex : fogEndX w s e < w) (hey : fogEndY h s e < h) :
    ((∀ t ∈ fogCells w h s e,
        (toU32 (jsArrayGet B (fogWordIndex t))).testBit ((t % 32).toNat) = true) →
      changeFogOfWarBitmask (some true)
        (some (changeFogOfWarBitmask (some false) (some B) w h s e)) w h s e = B)
    ∧ changeFogOfWarBitmask none
        (some (changeFogOfWarBitmask none (some B) w h s e)) w h s e = B := by
  have hcb : ∀ t ∈ fogCells w h s e, 0 ≤ t ∧ t < w * h := fogCells_in_grid hw hh hex hey
  have hwb : ∀ t ∈ fogCells w h s e,
      0 ≤ fogWordIndex t ∧ (fogWordIndex t).toNat < B.length := by
    intro t ht
    rw [hlen]
    exact fogWordIndex_bounds hw hh (hcb t ht).1 (hcb t ht).2 hwh
  have hidx : ∀ t ∈ fogCells w h s e, 0 ≤ fogWordIndex t := fun t ht => (hwb t ht).1
  have key : ∀ (r1 r2 : Option Bool),
      (∀ j : ℤ, fogWordFold r2
          (fogWordFold r1 (jsArrayGet B j)
            ((fogCells w h s e).filter (fun t => fogWordIndex t = j)))
          ((fogCells w h s e).filter (fun t => fogWordIndex t = j)) = jsArrayGet B j) →
      changeFogOfWarBitmask r2 (some (changeFogOfWarBitmask r1 (some B) w h s e)) w h s e
        = B := by
    intro r1 r2 hword
    rw [changeFogOfWarBitmask_some, changeFogOfWarBitmask_some]
    have hlen1 : (fogEditLoop r1 B (fogCells w h s e)).length = B.length :=
      fogEditLoop_length_preserved r1 (fogCells w h s e) B hwb
    have hwb2 : ∀ t ∈ fogCells w h s e, 0 ≤ fogWordIndex t
        ∧ (fogWordIndex t).toNat < (fogEditLoop r1 B (fogCells w h s e)).length := by
      rw [hlen1]
      exact hwb
    have hlen2 : (fogEditLoop r2 (fogEditLoop r1 B (fogCells w h s e))
        (fogCells w h s e)).length = B.length := by
      rw [fogEditLoop_length_preserved r2 (fogCells w h s e) _ hwb2, hlen1]
    apply list_eq_of_jsArrayGet hlen2
    intro j
    rw [fogEditLoop_get r2 (fogCells w h s e) _ hidx j,
      fogEditLoop_get r1 (fogCells w h s e) B hidx j]
    exact hword j
  constructor
  · intro hbits
    apply key (some false) (some true)
    intro j
    apply fogWordFold_cover_reveal (jsArrayGet_isInt32 hwords j)
    intro t htf
    rcases List.mem_filter.1 htf with ⟨htc, htj⟩
    have hj : fogWordIndex t = j := by
      exact of_decide_eq_true htj
    rw [← hj]
    exact hbits t htc
  · apply key none none
    intro j
    exact fogWordFold_toggle_toggle (jsArrayGet_isInt32 hwords j) _

/-- C3 counterexample: Reveal sets bits unconditionally, so Cover followed
by Reveal of the same rectangle does NOT restore an arbitrary baseline: on
a 1-by-1 grid with baseline `[0]` (cell covered), cover-then-reveal of the
single cell yields `[1]`, not `[0]`. -/
theorem changeFogOfWarBitmask_cover_reveal_not_roundtrip :
    changeFogOfWarBitmask (some true)
        (some (changeFogOfWarBitmask (some false) (some [0]) 1 1
          ((-1/2 : ℚ), (-1/2 : ℚ)) ((1/2 : ℚ), (1/2 : ℚ)))) 1 1
        ((-1/2 : ℚ), (-1/2 : ℚ)) ((1/2 : ℚ), (1/2 : ℚ)) = [1]
    ∧ ([1] : List ℤ) ≠ [0] := by
  have hsx : fogStartX 1 ((-1/2 : ℚ), (-1/2 : ℚ)) ((1/2 : ℚ), (1/2 : ℚ)) = 0 := by
    unfold fogStartX clamp
    norm_num
  have hex : fogEndX 1 ((-1/2 : ℚ), (-1/2 : ℚ)) ((1/2 : ℚ), (1/2 : ℚ)) = 0 := by
    unfold fogEndX clamp
    norm_num
  have hsy : fogStartY 1 ((-1/2 : ℚ), (-1/2 : ℚ)) ((1/2 : ℚ), (1/2 : ℚ)) = 0 := by
    unfold fogStartY clamp
    norm_num
  have hey : fogEndY 1 ((-1/2 : ℚ), (-1/2 : ℚ)) ((1/2 : ℚ), (1/2 : ℚ)) = 0 := by
    unfold fogEndY clamp
    norm_num
  have hcells : fogCells 1 1 ((-1/2 : ℚ), (-1/2 : ℚ)) ((1/2 : ℚ), (1/2 : ℚ)) = [0] := by
    unfold fogCells
    rw [hsx, hex, hsy, hey]
    decide
  rw [changeFogOfWarBitmask_some, changeFogOfWarBitmask_some, hcells]
  exact ⟨by decide, by decide⟩

/-- C3 witness: on a 1-by-1 grid with the rectangle covering the single
cell, cover-then-reveal restores the all-revealed bitmask `[-1]` (whose
touched bit is set), and toggle-twice restores the partially-covered
bitmask `[0]` even though its touched bit is clear. -/
theorem changeFogOfWarBitmask_roundtrip_involution_witness :
    changeFogOfWarBitmask (some true)
        (some (changeFogOfWarBitmask (some false) (some [-1]) 1 1
          ((-1/2 : ℚ), (-1/2 : ℚ)) ((1/2 : ℚ), (1/2 : ℚ)))) 1 1
        ((-1/2 : ℚ), (-1/2 : ℚ)) ((1/2 : ℚ), (1/2 : ℚ)) = [-1]
    ∧ changeFogOfWarBitmask none
        (some (changeFogOfWarBitmask none (some [0]) 1 1
          ((-1/2 : ℚ), (-1/2 : ℚ)) ((1/2 : ℚ), (1/2 : ℚ)))) 1 1
        ((-1/2 : ℚ), (-1/2 : ℚ)) ((1/2 : ℚ), (1/2 : ℚ)) = [0] := by
  have hsx : fogStartX 1 ((-1/2 : ℚ), (-1/2 : ℚ)) ((1/2 : ℚ), (1/2 : ℚ)) = 0 := by
    unfold fogStartX clamp
    norm_num
  have hex : fogEndX 1 ((-1/2 : ℚ), (-1/2 : ℚ)) ((1/2 : ℚ), (1/2 : ℚ)) = 0 := by
    unfold fogEndX clamp
    norm_num
  have hsy : fogStartY 1 ((-1/2 : ℚ), (-1/2 : ℚ)) ((1/2 : ℚ), (1/2 : ℚ)) = 0 := by
    unfold fogStartY clamp
    norm_num
  have hey : fogEndY 1 ((-1/2 : ℚ), (-1/2 : ℚ)) ((1/2 : ℚ), (1/2 : ℚ)) = 0 := by
    unfold fogEndY clamp
    norm_num
  have hcells : fogCells 1 1 ((-1/2 : ℚ), (-1/2 : ℚ)) ((1/2 : ℚ), (1/2 : ℚ)) = [0] := by
    unfold fogCells
    rw [hsx, hex, hsy, hey]
    decide
  have hallocLen : allocLen 1 1 = 1 := by
    unfold allocLen
    rw [ceil_eq_neg_floor_neg]
    norm_num
  constructor
  · apply (changeFogOfWarBitmask_roundtrip_involution [-1] 1 1
      ((-1/2 : ℚ), (-1/2 : ℚ)) ((1/2 : ℚ), (1/2 : ℚ))
      (by norm_num) (by norm_num) (by norm_num)
      (by rw [hallocLen]; rfl)
      (by
        intro x hx
        rcases List.mem_singleton.1 hx with rfl
        exact ⟨by norm_num, by norm_num⟩)
      (by rw [hex]; norm_num)
      (by rw [hey]; norm_num)).1
    intro t ht
    rw [hcells] at ht
    rcases List.mem_singleton.1 ht with rfl
    decide
  · exact (changeFogOfWarBitmask_roundtrip_involution [0] 1 1
      ((-1/2 : ℚ), (-1/2 : ℚ)) ((1/2 : ℚ), (1/2 : ℚ))
      (by norm_num) (by norm_num) (by norm_num)
      (by rw [hallocLen]; rfl)
      (by
        intro x hx
        rcases List.mem_singleton.1 hx with rfl
        exact ⟨by norm_num, by norm_num⟩)
      (by rw [hex]; norm_num)
      (by rw [hey]; norm_num)).2

theorem bigOrPat_append (l1 l2 : List ℤ) :
    bigOrPat (l1 ++ l2) = bigOrPat l1 ||| bigOrPat l2 := by
  show List.foldl _ 0 (l1 ++ l2) = _
  rw [List.foldl_append]
  exact foldl_lor_shift l2 (bigOrPat l1)

theorem fogWordFold_append (r : Option Bool) (b : ℤ) (l1 l2 : List ℤ) :
    fogWordFold r (fogWordFold r b l1) l2 = fogWordFold r b (l1 ++ l2) :=
  (List.foldl_append _ _ _ _).symm

theorem fogWordFold_reveal_comm (b : ℤ) (l1 l2 : List ℤ) :
    fogWordFold (some true) b (l1 ++ l2) = fogWordFold (some true) b (l2 ++ l1) := by
  cases l1 with
  | nil => rw [List.nil_append, List.append_nil]
  | cons t1 ts1 =>
    cases l2 with
    | nil => rw [List.nil_append, List.append_nil]
    | cons t2 ts2 =>
      have h1 : ((t1 :: ts1 ++ t2 :: ts2 : List ℤ).isEmpty) = false := rfl
      have h2 : ((t2 :: ts2 ++ t1 :: ts1 : List ℤ).isEmpty) = false := rfl
      rw [fogWordFold_pat, fogWordFold_pat, h1, h2, if_neg (by simp), if_neg (by simp),
        patFold_reveal_eq, patFold_reveal_eq, bigOrPat_append, bigOrPat_append,
        Nat.lor_comm (bigOrPat (t1 :: ts1)) (bigOrPat (t2 :: ts2))]

/-- C4: two Reveal edits over disjoint rectangles commute: revealing R1
then R2 produces the same bitmask as revealing R2 then R1, for every
starting bitmask. -/
theorem changeFogOfWarBitmask_reveal_comm
    (B : List ℤ) (w h : ℤ) (s1 e1 s2 e2 : ℚ × ℚ)
    (hw : 0 < w) (hh : 0 < h) (hbound : w * (h + 1) < 2147483648)
    (hdisj : ∀ t ∈ fogCells w h s1 e1, t ∉ fogCells w h s2 e2) :
    changeFogOfWarBitmask (some true)
        (some (changeFogOfWarBitmask (some true) (some B) w h s1 e1)) w h s2 e2
      = changeFogOfWarBitmask (some true)
          (some (changeFogOfWarBitmask (some true) (some B) w h s2 e2)) w h s1 e1 := by
  have hnn : ∀ (sa ea : ℚ × ℚ), ∀ t ∈ fogCells w h sa ea, 0 ≤ fogWordIndex t := by
    intro sa ea t ht
    obtain ⟨h0, hle⟩ := fogCells_bounded hw hh t ht
    rw [fogWordIndex_eq_ediv h0 (by omega)]
    exact Int.ediv_nonneg h0 (by norm_num)
  have hidx1 := hnn s1 e1
  have hidx2 := hnn s2 e2
  rw [changeFogOfWarBitmask_some, changeFogOfWarBitmask_some, changeFogOfWarBitmask_some,
    changeFogOfWarBitmask_some]
  have hlenL : (fogEditLoop (some true) (fogEditLoop (some true) B (fogCells w h s1 e1))
      (fogCells w h s2 e2)).length
      = List.foldl (fun n t => max n ((fogWordIndex t).toNat + 1))
          (List.foldl (fun n t => max n ((fogWordIndex t).toNat + 1)) B.length
            (fogCells w h s1 e1)) (fogCells w h s2 e2) := by
    rw [fogEditLoop_length (some true) (fogCells w h s2 e2) _ hidx2,
      fogEditLoop_length (some true) (fogCells w h s1 e1) B hidx1]
  have hlenR : (fogEditLoop (some true) (fogEditLoop (some true) B (fogCells w h s2 e2))
      (fogCells w h s1 e1)).length
      = List.foldl (fun n t => max n ((fogWordIndex t).toNat + 1))
          (List.foldl (fun n t => max n ((fogWordIndex t).toNat + 1)) B.length
            (fogCells w h s2 e2)) (fogCells w h s1 e1) := by
    rw [fogEditLoop_length (some true) (fogCells w h s1 e1) _ hidx1,
      fogEditLoop_length (some true) (fogCells w h s2 e2) B hidx2]
  have hleneq : (fogEditLoop (some true) (fogEditLoop (some true) B (fogCells w h s1 e1))
      (fogCells w h s2 e2)).length
      = (fogEditLoop (some true) (fogEditLoop (some true) B (fogCells w h s2 e2))
          (fogCells w h s1 e1)).length := by
    have hA := foldl_max_shift (fun t => (fogWordIndex t).toNat + 1)
      (fogCells w h s1 e1) B.length
    have hB := foldl_max_shift (fun t => (fogWordIndex t).toNat + 1)
      (fogCells w h s2 e2) B.length
    have hC := foldl_max_shift (fun t => (fogWordIndex t).toNat + 1) (fogCells w h s2 e2)
      (List.foldl (fun n t => max n ((fogWordIndex t).toNat + 1)) B.length (fogCells w h s1 e1))
    have hD := foldl_max_shift (fun t => (fogWordIndex t).toNat + 1) (fogCells w h s1 e1)
      (List.foldl (fun n t => max n ((fogWordIndex t).toNat + 1)) B.length (fogCells w h s2 e2))
    rw [hlenL, hlenR]
    omega
  apply list_eq_of_jsArrayGet hleneq
  intro j
  rw [fogEditLoop_get (some true) (fogCells w h s2 e2) _ hidx2 j,
    fogEditLoop_get (some true) (fogCells w h s1 e1) B hidx1 j,
    fogEditLoop_get (some true) (fogCells w h s1 e1) _ hidx1 j,
    fogEditLoop_get (some true) (fogCells w h s2 e2) B hidx2 j,
    fogWordFold_append, fogWordFold_append]
  exact fogWordFold_reveal_comm _ _ _

/-- C4 witness: on a 2-by-1 grid, revealing the left cell then the right
cell equals revealing them in the other order. -/
theorem changeFogOfWarBitmask_reveal_comm_witness :
    (∀ t ∈ fogCells 2 1 ((-1 : ℚ), (-1/2 : ℚ)) ((0 : ℚ), (1/2 : ℚ)),
      t ∉ fogCells 2 1 ((0 : ℚ), (-1/2 : ℚ)) ((1 : ℚ), (1/2 : ℚ)))
    ∧ changeFogOfWarBitmask (some true)
        (some (changeFogOfWarBitmask (some true) (some [0]) 2 1
          ((-1 : ℚ), (-1/2 : ℚ)) ((0 : ℚ), (1/2 : ℚ)))) 2 1
        ((0 : ℚ), (-1/2 : ℚ)) ((1 : ℚ), (1/2 : ℚ))
      = changeFogOfWarBitmask (some true)
          (some (changeFogOfWarBitmask (some true) (some [0]) 2 1
            ((0 : ℚ), (-1/2 : ℚ)) ((1 : ℚ), (1/2 : ℚ)))) 2 1
          ((-1 : ℚ), (-1/2 : ℚ)) ((0 : ℚ), (1/2 : ℚ)) := by
  have hc1 : fogCells 2 1 ((-1 : ℚ), (-1/2 : ℚ)) ((0 : ℚ), (1/2 : ℚ)) = [0] := by
    have h1 : fogStartX 2 ((-1 : ℚ), (-1/2 : ℚ)) ((0 : ℚ), (1/2 : ℚ)) = 0 := by
      unfold fogStartX clamp
      norm_num
    have h2 : fogEndX 2 ((-1 : ℚ), (-1/2 : ℚ)) ((0 : ℚ), (1/2 : ℚ)) = 0 := by
      unfold fogEndX clamp
      norm_num
    have h3 : fogStartY 1 ((-1 : ℚ), (-1/2 : ℚ)) ((0 : ℚ), (1/2 : ℚ)) = 0 := by
      unfold fogStartY clamp
      norm_num
    have h4 : fogEndY 1 ((-1 : ℚ), (-1/2 : ℚ)) ((0 : ℚ), (1/2 : ℚ)) = 0 := by
      unfold fogEndY clamp
      norm_num
    unfold fogCells
    rw [h1, h2, h3, h4]
    decide
  have hc2 : fogCells 2 1 ((0 : ℚ), (-1/2 : ℚ)) ((1 : ℚ), (1/2 : ℚ)) = [1] := by
    have h1 : fogStartX 2 ((0 : ℚ), (-1/2 : ℚ)) ((1 : ℚ), (1/2 : ℚ)) = 1 := by
      unfold fogStartX clamp
      norm_num
    have h2 : fogEndX 2 ((0 : ℚ), (-1/2 : ℚ)) ((1 : ℚ), (1/2 : ℚ)) = 1 := by
      unfold fogEndX clamp
      norm_num
    have h3 : fogStartY 1 ((0 : ℚ), (-1/2 : ℚ)) ((1 : ℚ), (1/2 : ℚ)) = 0 := by
      unfold fogStartY clamp
      norm_num
    have h4 : fogEndY 1 ((0 : ℚ), (-1/2 : ℚ)) ((1 : ℚ), (1/2 : ℚ)) = 0 := by
      unfold fogEndY clamp
      norm_num
    unfold fogCells
    rw [h1, h2, h3, h4]
    decide
  have hdisj : ∀ t ∈ fogCells 2 1 ((-1 : ℚ), (-1/2 : ℚ)) ((0 : ℚ), (1/2 : ℚ)),
      t ∉ fogCells 2 1 ((0 : ℚ), (-1/2 : ℚ)) ((1 : ℚ), (1/2 : ℚ)) := by
    rw [hc1, hc2]
    decide
  exact ⟨hdisj, changeFogOfWarBitmask_reveal_comm [0] 2 1 _ _ _ _
    (by norm_num) (by norm_num) (by norm_num) hdisj⟩

theorem storeGet_storeSet_ne {st : List (List ℤ)} {r1 r2 : ℕ} {v : List ℤ} (hne : r1 ≠ r2) :
    storeGet (storeSet st r2 v) r1 = storeGet st r1 := by
  unfold storeGet storeSet
  rw [List.getD_eq_getElem?_getD, List.getD_eq_getElem?_getD, List.getElem?_set,
    if_neg (fun hc => hne hc.symm)]

theorem storeGet_storeSet_self {st : List (List ℤ)} {r : ℕ} {v : List ℤ} (h : r < st.length) :
    storeGet (storeSet st r v) r = v := by
  unfold storeGet storeSet
  rw [List.getD_eq_getElem?_getD, List.getElem?_set, if_pos rfl, if_pos h]
  rfl

theorem storeFold_frame (reveal : Option Bool) (cells : List ℤ) :
    ∀ (st : List (List ℤ)) (rA rB : ℕ), rA ≠ rB →
    storeGet (cells.foldl
      (fun st t => storeSet st rB (fogApplyCell reveal (storeGet st rB) t)) st) rA
      = storeGet st rA := by
  induction cells with
  | nil => intro st rA rB _; rfl
  | cons t ts ih =>
    intro st rA rB hne
    show storeGet (ts.foldl _ (storeSet st rB (fogApplyCell reveal (storeGet st rB) t))) rA = _
    rw [ih _ rA rB hne, storeGet_storeSet_ne hne]

theorem storeFold_val (reveal : Option Bool) (cells : List ℤ) :
    ∀ (st : List (List ℤ)) (rB : ℕ), rB < st.length →
    storeGet (cells.foldl
      (fun st t => storeSet st rB (fogApplyCell reveal (storeGet st rB) t)) st) rB
      = fogEditLoop reveal (storeGet st rB) cells := by
  induction cells with
  | nil => intro st rB _; rfl
  | cons t ts ih =>
    intro st rB hlt
    have hlen : (storeSet st rB (fogApplyCell reveal (storeGet st rB) t)).length
        = st.length := List.length_set st rB _
    show storeGet (ts.foldl _ (storeSet st rB (fogApplyCell reveal (storeGet st rB) t))) rB = _
    rw [ih _ rB (by omega), storeGet_storeSet_self hlt]
    rfl

/-- C5: the fog edit never mutates the input bitmask: the spread
`[...map.fogOfWar]` copies it into a fresh array and every loop write goes
through the fresh reference, so after the call the input reference still
holds its original words, and the fresh reference holds the edited copy. -/
theorem changeFogOfWarBitmaskStore_copy_on_write (reveal : Option Bool)
    (store : List (List ℤ)) (inputRef : ℕ) (w h : ℤ) (s e : ℚ × ℚ)
    (hin : inputRef < store.length) :
    storeGet (changeFogOfWarBitmaskStore reveal store inputRef w h s e).1 inputRef
      = storeGet store inputRef
    ∧ storeGet (changeFogOfWarBitmaskStore reveal store inputRef w h s e).1
        (changeFogOfWarBitmaskStore reveal store inputRef w h s e).2
      = changeFogOfWarBitmask reveal (some (storeGet store inputRef)) w h s e := by
  have hne : inputRef ≠ store.length := by omega
  have hcopy1 : storeGet (store ++ [storeGet store inputRef]) inputRef
      = storeGet store inputRef := by
    unfold storeGet
    rw [List.getD_eq_getElem?_getD, List.getD_eq_getElem?_getD,
      List.getElem?_append_left hin]
  have hcopy2 : storeGet (store ++ [storeGet store inputRef]) store.length
      = storeGet store inputRef := by
    unfold storeGet
    rw [List.getD_eq_getElem?_getD, List.getElem?_concat_length]
    rfl
  constructor
  · show storeGet ((fogCells w h s e).foldl _ (store ++ [storeGet store inputRef])) inputRef = _
    rw [storeFold_frame reveal (fogCells w h s e) _ inputRef store.length hne, hcopy1]
  · show storeGet ((fogCells w h s e).foldl _ (store ++ [storeGet store inputRef]))
        store.length = _
    rw [storeFold_val reveal (fogCells w h s e) _ store.length
        (by rw [List.length_append]; simp), hcopy2]
    rfl

/-- C5 witness: editing the single-array store `[[0]]` through reference 0
leaves the original array `[0]` unchanged at its reference. -/
theorem changeFogOfWarBitmaskStore_copy_on_write_witness :
    0 < ([[(0 : ℤ)]] : List (List ℤ)).length
    ∧ storeGet (changeFogOfWarBitmaskStore (some true) [[(0 : ℤ)]] 0 1 1
        ((-1/2 : ℚ), (-1/2 : ℚ)) ((1/2 : ℚ), (1/2 : ℚ))).1 0 = [0] :=
  ⟨by decide,
   (changeFogOfWarBitmaskStore_copy_on_write (some true) [[(0 : ℤ)]] 0 1 1
      ((-1/2 : ℚ), (-1/2 : ℚ)) ((1/2 : ℚ), (1/2 : ℚ)) (by decide)).1⟩

theorem childrenFold_some (state : ChildrenMap) (id : String) :
    ∀ (parents : List String) (m : ChildrenMap) (k : String),
    ((parents.foldl (childrenUpdateStep state id) (some m)).getD state) k
      = if id ∉ ((state k).getD []) ∧ k ∈ parents
        then some (((m k).getD []) ++ List.replicate (parents.count k) id)
        else m k := by
  intro parents
  induction parents with
  | nil =>
    intro m k
    rw [if_neg (fun hc => List.not_mem_nil k hc.2)]
    rfl
  | cons p ps ih =>
    intro m k
    show ((ps.foldl (childrenUpdateStep state id)
        (childrenUpdateStep state id (some m) p)).getD state) k = _
    by_cases hidp : id ∈ ((state p).getD [])
    · have hstep : childrenUpdateStep state id (some m) p = some m := by
        unfold childrenUpdateStep
        rw [if_pos hidp]
      rw [hstep, ih m k]
      by_cases hk : k = p
      · subst hk
        rw [if_neg (fun hc => hc.1 hidp), if_neg (fun hc => hc.1 hidp)]
      · have hpk : ¬ (p = k) := fun hc => hk hc.symm
        by_cases hcond : id ∉ ((state k).getD []) ∧ k ∈ ps
        · rw [if_pos hcond, if_pos ⟨hcond.1, List.mem_cons_of_mem p hcond.2⟩,
            List.count_cons]
          simp [hk, hpk]
        · rw [if_neg hcond, if_neg (fun hc => hcond ⟨hc.1, by
            rcases List.mem_cons.1 hc.2 with hkp | hkps
            · exact absurd hkp hk
            · exact hkps⟩)]
    · have hstep : childrenUpdateStep state id (some m) p
          = some (fun k' => if k' = p then some (((m p).getD []) ++ [id]) else m k') := by
        unfold childrenUpdateStep
        rw [if_neg hidp]
        rfl
      rw [hstep, ih _ k]
      by_cases hk : k = p
      · subst hk
        by_cases hps : k ∈ ps
        · rw [if_pos (And.intro hidp hps),
            if_pos (And.intro hidp (List.mem_cons_self k ps)), if_pos rfl,
            Option.getD_some, List.count_cons_self, List.replicate_succ, List.append_assoc]
          rfl
        · rw [if_neg (fun hc => hps hc.2),
            if_pos (And.intro hidp (List.mem_cons_self k ps)), if_pos rfl,
            List.count_cons_self, List.count_eq_zero.2 hps]
          rfl
      · have hpk : ¬ (p = k) := fun hc => hk hc.symm
        have hif : (if k = p then some (((m p).getD []) ++ [id]) else m k) = m k := if_neg hk
        rw [hif]
        by_cases hcond : id ∉ ((state k).getD []) ∧ k ∈ ps
        · rw [if_pos hcond, if_pos ⟨hcond.1, List.mem_cons_of_mem p hcond.2⟩,
            List.count_cons]
          simp [hk, hpk]
        · rw [if_neg hcond, if_neg (fun hc => hcond ⟨hc.1, by
            rcases List.mem_cons.1 hc.2 with hkp | hkps
            · exact absurd hkp hk
            · exact hkps⟩)]

theorem childrenFold_none (state : ChildrenMap) (id : String) :
    ∀ (parents : List String) (k : String),
    ((parents.foldl (childrenUpdateStep state id) none).getD state) k
      = ((parents.foldl (childrenUpdateStep state id) (some state)).getD state) k := by
  intro parents
  induction parents with
  | nil => intro k; rfl
  | cons p ps ih =>
    intro k
    by_cases hidp : id ∈ ((state p).getD [])
    · have h1 : childrenUpdateStep state id none p = none := by
        unfold childrenUpdateStep
        rw [if_pos hidp]
      have h2 : childrenUpdateStep state id (some state) p = some state := by
        unfold childrenUpdateStep
        rw [if_pos hidp]
      show ((ps.foldl _ (childrenUpdateStep state id none p)).getD state) k
          = ((ps.foldl _ (childrenUpdateStep state id (some state) p)).getD state) k
      rw [h1, h2]
      exact ih k
    · have h1 : childrenUpdateStep state id none p
          = some (fun k' => if k' = p then some (((state p).getD []) ++ [id]) else state k') := by
        unfold childrenUpdateStep
        rw [if_neg hidp]
        rfl
      have h2 : childrenUpdateStep state id (some state) p
          = some (fun k' => if k' = p then some (((state p).getD []) ++ [id]) else state k') := by
        unfold childrenUpdateStep
        rw [if_neg hidp]
        rfl
      show ((ps.foldl _ (childrenUpdateStep state id none p)).getD state) k
          = ((ps.foldl _ (childrenUpdateStep state id (some state) p)).getD state) k
      rw [h1, h2]

theorem childrenReducerUpdateFile_apply (state : ChildrenMap) (parents : List String)
    (id k : String) :
    childrenReducerUpdateFile state parents id k
      = if id ∉ ((state k).getD []) ∧ k ∈ parents
        then some (((state k).getD []) ++ List.replicate (parents.count k) id)
        else state k := by
  unfold childrenReducerUpdateFile
  rw [childrenFold_none state id parents k, childrenFold_some state id parents state k]

theorem removeFromChildren_not_mem (id : String) :
    ∀ (l : List String) (children : ChildrenMap) (k : String), k ∉ l →
    removeFromChildren children l id k = children k := by
  intro l
  induction l with
  | nil => intro children k _; rfl
  | cons q l ih =>
    intro children k hk
    show removeFromChildren (fun k' => if k' = q
        then some (((children q).getD []).filter (fun c => c ≠ id)) else children k') l id k
      = children k
    rw [ih _ k (fun hc => hk (List.mem_cons_of_mem q hc)),
      if_neg (fun hc => hk (by rw [hc]; exact List.mem_cons_self q l))]

theorem removeFromChildren_mem (id : String) :
    ∀ (l : List String) (children : ChildrenMap) (k : String), k ∈ l →
    id ∉ ((removeFromChildren children l id k).getD []) := by
  intro l
  induction l with
  | nil =>
    intro children k hk
    exact absurd hk (List.not_mem_nil k)
  | cons q l ih =>
    intro children k hk
    by_cases hkl : k ∈ l
    · exact ih _ k hkl
    · have hkq : k = q := by
        rcases List.mem_cons.1 hk with h | h
        · exact h
        · exact absurd h hkl
      subst hkq
      show id ∉ ((removeFromChildren (fun k' => if k' = k
          then some (((children k).getD []).filter (fun c => c ≠ id)) else children k')
          l id k).getD [])
      rw [removeFromChildren_not_mem id l _ k hkl, if_pos rfl, Option.getD_some]
      intro hmem
      rcases List.mem_filter.1 hmem with ⟨_, hpred⟩
      exact absurd rfl (of_decide_eq_true hpred)

theorem fileIndexReducerUpdateFile_children_cases
    (state : FileIndexState) (metadata old : DriveMetadataLite)
    (hold : state.driveMetadata metadata.id = some old) :
    (fileIndexReducerUpdateFile state metadata).children
      = if old.parents = metadata.parents
        then childrenReducerUpdateFile state.children metadata.parents metadata.id
        else if (old.parents.filter (fun q => q ∉ metadata.parents)).isEmpty
        then childrenReducerUpdateFile state.children metadata.parents metadata.id
        else removeFromChildren
          (childrenReducerUpdateFile state.children metadata.parents metadata.id)
          (old.parents.filter (fun q => q ∉ metadata.parents)) metadata.id := by
  simp only [fileIndexReducerUpdateFile, hold]
  by_cases heq : old.parents = metadata.parents
  · rw [if_pos heq, if_pos heq]
  · rw [if_neg heq, if_neg heq]
    by_cases hemp : (old.parents.filter (fun q => q ∉ metadata.parents)).isEmpty
    · rw [if_pos hemp, if_pos hemp]
    · rw [if_neg hemp, if_neg hemp]

/-- C10 (amended): after an update-file action whose new parents list is
duplicate-free, starting from a state whose children lists hold the child
at most once (the reducer's own invariant), the child id appears exactly
once under every new parent, and not at all under every parent dropped
from the old stored metadata. -/
theorem fileIndexReducerUpdateFile_children_spec
    (state : FileIndexState) (metadata old : DriveMetadataLite)
    (hold : state.driveMetadata metadata.id = some old)
    (hnodup : metadata.parents.Nodup)
    (hcount : ∀ q, ((state.children q).getD []).count metadata.id ≤ 1) :
    (∀ p ∈ metadata.parents,
      (((fileIndexReducerUpdateFile state metadata).children p).getD []).count metadata.id
        = 1)
    ∧ ∀ q ∈ old.parents, q ∉ metadata.parents →
      metadata.id ∉ (((fileIndexReducerUpdateFile state metadata).children q).getD []) := by
  have hres := fileIndexReducerUpdateFile_children_cases state metadata old hold
  constructor
  · intro p hp
    have hch1 : (((childrenReducerUpdateFile state.children metadata.parents metadata.id)
        p).getD []).count metadata.id = 1 := by
      rw [childrenReducerUpdateFile_apply]
      by_cases hidm : metadata.id ∈ ((state.children p).getD [])
      · rw [if_neg (fun hc => hc.1 hidm)]
        have hge : 0 < ((state.children p).getD []).count metadata.id :=
          List.count_pos_iff.2 hidm
        have hle := hcount p
        omega
      · rw [if_pos (And.intro hidm hp), Option.getD_some, List.count_append,
          List.count_eq_zero.2 hidm, List.count_replicate,
          List.count_eq_one_of_mem hnodup hp]
        simp
    have hnotrem : p ∉ old.parents.filter (fun q => q ∉ metadata.parents) := by
      intro hc
      rcases List.mem_filter.1 hc with ⟨_, hpred⟩
      exact (of_decide_eq_true hpred) hp
    rw [hres]
    by_cases heq : old.parents = metadata.parents
    · rw [if_pos heq]
      exact hch1
    · rw [if_neg heq]
      by_cases hemp : (old.parents.filter (fun q => q ∉ metadata.parents)).isEmpty
      · rw [if_pos hemp]
        exact hch1
      · rw [if_neg hemp, removeFromChildren_not_mem metadata.id _ _ p hnotrem]
        exact hch1
  · intro q hq hqn
    have heq : ¬ (old.parents = metadata.parents) := fun hc => hqn (hc ▸ hq)
    have hqmem : q ∈ old.parents.filter (fun q' => q' ∉ metadata.parents) :=
      List.mem_filter.2 ⟨hq, decide_eq_true hqn⟩
    have hemp : ¬ ((old.parents.filter (fun q' => q' ∉ metadata.parents)).isEmpty = true) := by
      rw [List.isEmpty_iff]
      exact fun hc => (List.ne_nil_of_mem hqmem) hc
    rw [hres, if_neg heq, if_neg hemp]
    exact removeFromChildren_mem metadata.id _ _ q hqmem

/-- C10 witness: updating file `i` with sole new parent `p`, dropping old
parent `q`, leaves `i` exactly once under `p` and removes it from `q`. -/
theorem fileIndexReducerUpdateFile_children_spec_witness :
    ((((fileIndexReducerUpdateFile
        ⟨fun k => if k = "i" then some ⟨"i", ["q"]⟩ else none,
         fun k => if k = "q" then some ["i"] else none⟩
        ⟨"i", ["p"]⟩).children "p").getD []).count "i" = 1)
    ∧ "i" ∉ (((fileIndexReducerUpdateFile
        ⟨fun k => if k = "i" then some ⟨"i", ["q"]⟩ else none,
         fun k => if k = "q" then some ["i"] else none⟩
        ⟨"i", ["p"]⟩).children "q").getD []) := by
  have hcount : ∀ q, (((fun k => if k = "q" then some ["i"] else none :
      ChildrenMap) q).getD []).count "i" ≤ 1 := by
    intro q
    by_cases hq : q = "q"
    · subst hq
      decide
    · rw [show ((fun k => if k = "q" then some ["i"] else none : ChildrenMap) q) = none
        from if_neg hq]
      decide
  have hspec := fileIndexReducerUpdateFile_children_spec
    ⟨fun k => if k = "i" then some ⟨"i", ["q"]⟩ else none,
     fun k => if k = "q" then some ["i"] else none⟩
    ⟨"i", ["p"]⟩ ⟨"i", ["q"]⟩ (by decide) (by decide) hcount
  exact ⟨hspec.1 "p" (by decide), hspec.2 "q" (by decide) (by decide)⟩

/-- C10 counterexample: an update-file action whose parents list repeats
the same directory appends the child twice — the duplicate test reads the
pre-update state both times — so "exactly once" fails from a valid starting
state. -/
theorem fileIndexReducerUpdateFile_duplicate_parents :
    (((fileIndexReducerUpdateFile
        ⟨fun k => if k = "i" then some ⟨"i", []⟩ else none, fun _ => none⟩
        ⟨"i", ["p", "p"]⟩).children "p").getD []).count "i" = 2 := by
  decide

end GTove
